import Mathlib

/-! goEtherStudy: block poller and contract-call decoder (`main.go`).

A shallow embedding of `main.go`.  Every Go function of the file is a Lean
function of the same name.  Calls into the outside world (chain node, HTTP
registry, go-ethereum and standard-library helpers) take their outcome from an
explicit input record, and every externally visible action is appended to a
trace of `Event`s, so that "no registry fetch", "sleeps before the next
request" and similar statements become statements about the trace.  A Go
run-time panic is the result `none`.
-/

namespace GoEtherStudy

/-! ## `math/big` values used by `weiToEth` -/

/-- Number of bits of a natural number: `big.Int.BitLen` for a non-negative value.
The first argument is recursion fuel. -/
def bitLenAux : Nat → Nat → Nat
  | 0, _ => 0
  | fuel + 1, n => if n = 0 then 0 else bitLenAux fuel (n / 2) + 1

/-- Bit length of `n`: the least `k` with `n < 2 ^ k`. -/
def bitLen (n : Nat) : Nat := bitLenAux n n

/-- A non-negative `big.Float`.  `finite prec mant exp` has the value
`mant * 2 ^ exp`, with `mant` holding exactly `prec` bits (the mantissa is kept
normalised as in `math/big`, here as an integer instead of a fraction).
Negative values never arise from a transaction value and are left out. -/
inductive BigFloat
  | zero (prec : Nat)
  | finite (prec : Nat) (mant : Nat) (exp : Int)
  | inf (prec : Nat)
  deriving DecidableEq, Repr

namespace BigFloat

/-- Precision (mantissa width in bits) of a value. -/
def prec : BigFloat → Nat
  | zero p => p
  | finite p _ _ => p
  | inf p => p

/-- Whether the value is a finite number (zero included). -/
def isFinite : BigFloat → Bool
  | inf _ => false
  | _ => true

/-- The rational number a finite value denotes (`0` for an infinity). -/
def toRat : BigFloat → ℚ
  | zero _ => 0
  | finite _ m e => (m : ℚ) * (2 : ℚ) ^ e
  | inf _ => 0

/-- Mantissa rounding of `math/big` (`Float.round`, mode `ToNearestEven`): the
low `t` bits of `q` are cut.  The rounding bit is the highest bit cut, the
sticky bit is set when `sbit` is set or any lower bit cut is set, and the kept
mantissa is incremented when the rounding bit is set and either the sticky bit
is set or the kept mantissa is odd. -/
def roundMant (q t : Nat) (sbit : Bool) : Nat :=
  let m := q / 2 ^ t
  let rbit := (q / 2 ^ (t - 1)) % 2
  let sticky := sbit || decide (q % 2 ^ (t - 1) ≠ 0)
  let inc := decide (rbit = 1) && (sticky || decide (m % 2 = 1))
  if inc then m + 1 else m

/-- Rounding step of `math/big` (`Float.round`): the value `(q + s) * 2 ^ e`,
where `0 ≤ s < 1` and `sbit` tells whether `s ≠ 0`, is brought to `p` mantissa
bits.  A mantissa of at most `p` bits is kept (shifted into normal position);
a longer one is rounded by `roundMant`, and a mantissa that overflows to
`2 ^ p` is halved and the exponent incremented. -/
def round (p : Nat) (q : Nat) (e : Int) (sbit : Bool) : BigFloat :=
  if q = 0 then zero p
  else
    let b := bitLen q
    if b ≤ p then finite p (q * 2 ^ (p - b)) (e - ((p - b : Nat) : Int))
    else
      let t := b - p
      let m1 := roundMant q t sbit
      if m1 = 2 ^ p then finite p (2 ^ (p - 1)) (e + (t : Int) + 1)
      else finite p m1 (e + (t : Int))

/-- The call `new(big.Float).SetInt(x)` for `x ≥ 0`: precision
`max(x.BitLen(), 64)`, value `x` exactly. -/
def SetInt (x : Nat) : BigFloat :=
  round (max (bitLen x) 64) x 0 false

/-- The call `big.NewFloat(x)` for a float64 `x` holding a non-negative integer:
precision 53. -/
def NewFloat (x : Nat) : BigFloat :=
  round 53 x 0 false

/-- The call `new(big.Float).Quo(x, y)`: precision `max(x.prec, y.prec)`, the
quotient rounded to nearest even.  As in `Float.uquo` the mantissa of `x` is
extended by zero bits until the integer quotient holds more than the wanted
precision, and a non-zero remainder sets the sticky bit.  `0/0` and `Inf/Inf`
panic (`none`). -/
def Quo (x y : BigFloat) : Option BigFloat :=
  let p := max x.prec y.prec
  match x, y with
  | finite _ xm xe, finite _ ym ye =>
    let k := p + 1 + bitLen ym
    some (round p (xm * 2 ^ k / ym) (xe - ye - (k : Int)) (decide (xm * 2 ^ k % ym ≠ 0)))
  | zero _, zero _ => none
  | inf _, inf _ => none
  | zero _, _ => some (zero p)
  | _, inf _ => some (zero p)
  | _, _ => some (inf p)

end BigFloat

/-- Go: `weiToEth` (main.go:87-90): `SetInt(wei)` divided by `big.NewFloat(1e18)`. -/
def weiToEth (wei : Nat) : Option BigFloat :=
  let ethValue := BigFloat.SetInt wei
  BigFloat.Quo ethValue (BigFloat.NewFloat 1000000000000000000)

/-! ## Decimal text of a `big.Float` (`Float.String`) -/

/-- The `decimal` of `math/big`: the digits `mant`, most significant first and
without leading or trailing zeros, denote `0.mant * 10 ^ exp`; zero has no
digits and exponent 0. -/
structure Decimal where
  mant : List Nat
  exp : Int
  deriving DecidableEq, Repr

/-- Decimal digits of `n`, most significant first, in front of `acc`.  The first
argument is recursion fuel. -/
def utoaAux : Nat → Nat → List Nat → List Nat
  | 0, _, acc => acc
  | fuel + 1, n, acc => if n = 0 then acc else utoaAux fuel (n / 10) (n % 10 :: acc)

/-- Decimal digits of a positive number (`nat.utoa(10)`); a number has at most
as many decimal digits as bits. -/
def utoa (n : Nat) : List Nat := utoaAux (bitLen n) n []

/-- Go: `strconv.AppendInt(buf, n, 10)` for `n ≥ 0`, as digits. -/
def itoa (n : Nat) : List Nat := if n = 0 then [0] else utoa n

/-- Digits without their trailing zeros. -/
def trimZeros (ds : List Nat) : List Nat :=
  (ds.reverse.dropWhile (fun d => decide (d = 0))).reverse

/-- The character of a decimal digit. -/
def digitChar : Nat → Char
  | 0 => '0'
  | 1 => '1'
  | 2 => '2'
  | 3 => '3'
  | 4 => '4'
  | 5 => '5'
  | 6 => '6'
  | 7 => '7'
  | 8 => '8'
  | _ => '9'

namespace Decimal

/-- Go: `decimal.init(m, shift)`: the exact decimal expansion of `m * 2 ^ shift`.
A left shift multiplies by a power of 2; a right shift by `k` bits is exact in
decimal and amounts to the digits of `m * 5 ^ k` with the point moved `k` places
left. -/
def init (m : Nat) (shift : Int) : Decimal :=
  if m = 0 then ⟨[], 0⟩
  else
    match shift with
    | Int.ofNat k =>
      let s := utoa (m * 2 ^ k)
      ⟨trimZeros s, (s.length : Int)⟩
    | Int.negSucc k =>
      let s := utoa (m * 5 ^ (k + 1))
      ⟨trimZeros s, (s.length : Int) - ((k + 1 : Nat) : Int)⟩

/-- Go: `shouldRoundUp(x, n)`: an exact half rounds to even, otherwise the digit
at `n` decides. -/
def shouldRoundUp (x : Decimal) (n : Nat) : Bool :=
  if x.mant.getD n 0 = 5 ∧ n + 1 = x.mant.length then
    decide (n > 0) && decide (x.mant.getD (n - 1) 0 % 2 ≠ 0)
  else decide (x.mant.getD n 0 ≥ 5)

/-- Go: `decimal.roundUp(n)` for `n < len(x.mant)`: the digits before `n` with
their trailing nines dropped and the last one incremented; all nines give `1`
with the exponent incremented. -/
def roundUp (x : Decimal) (n : Nat) : Decimal :=
  match ((x.mant.take n).reverse.dropWhile (fun d => decide (d ≥ 9))) with
  | [] => ⟨[1], x.exp + 1⟩
  | last :: front => ⟨front.reverse ++ [last + 1], x.exp⟩

/-- Go: `decimal.roundDown(n)` for `n < len(x.mant)`: the first `n` digits,
trimmed. -/
def roundDown (x : Decimal) (n : Nat) : Decimal :=
  let m := trimZeros (x.mant.take n)
  ⟨m, if m = [] then 0 else x.exp⟩

/-- Go: `decimal.round(n)` for `n ≥ 0`: at most `n` digits are kept. -/
def round (x : Decimal) (n : Nat) : Decimal :=
  if n ≥ x.mant.length then x
  else if x.shouldRoundUp n then x.roundUp n else x.roundDown n

/-- Go: `decimal.at(i)`: the digit at index `i`, zero outside the mantissa. -/
def digitAt (x : Decimal) (i : Int) : Nat :=
  if 0 ≤ i ∧ i < (x.mant.length : Int) then x.mant.getD i.toNat 0 else 0

end Decimal

/-- Go: `fmtE(buf, 'e', prec, d)`: one digit, `prec` digits after the point, then
`e`, the sign and at least two digits of the decimal exponent. -/
def fmtE (prec : Nat) (d : Decimal) : List Char :=
  let first := match d.mant with
    | [] => '0'
    | c :: _ => digitChar c
  let m := min d.mant.length (prec + 1)
  let frac :=
    if prec > 0 then
      '.' :: (((d.mant.take m).drop 1).map digitChar ++
        List.replicate (prec + 1 - max 1 m) '0')
    else []
  let exp : Int := if d.mant.length > 0 then d.exp - 1 else 0
  let sign := if exp < 0 then '-' else '+'
  let pad := if exp.natAbs < 10 then ['0'] else []
  first :: frac ++ ['e', sign] ++ pad ++ (itoa exp.natAbs).map digitChar

/-- Go: `fmtF(buf, prec, d)`: the integer part, and `prec` digits after the
point when `prec > 0`. -/
def fmtF (prec : Nat) (d : Decimal) : List Char :=
  let whole :=
    if d.exp > 0 then
      let m := min d.mant.length d.exp.toNat
      (d.mant.take m).map digitChar ++ List.replicate (d.exp.toNat - m) '0'
    else ['0']
  let frac :=
    if prec > 0 then
      '.' :: (List.range prec).map (fun i => digitChar (d.digitAt (d.exp + (i : Int))))
    else []
  whole ++ frac

/-- Go: `x.Text('g', prec)` for a non-negative `x` and `prec ≥ 0`
(`Float.Append`): the exact decimal expansion of `x` is rounded to `prec`
digits and written in `%e` form when the decimal exponent is below -4 or is at
least the number of digits shown, in `%f` form otherwise. -/
def BigFloat.TextG (x : BigFloat) (prec : Nat) : List Char :=
  match x with
  | BigFloat.inf _ => ['+', 'I', 'n', 'f']
  | _ =>
    let d0 : Decimal := match x with
      | BigFloat.finite _ m e => Decimal.init m e
      | _ => ⟨[], 0⟩
    let prec1 := if prec = 0 then 1 else prec
    let d := d0.round prec1
    let eprec :=
      if prec1 > d.mant.length ∧ (d.mant.length : Int) ≥ d.exp then d.mant.length else prec1
    let exp := d.exp - 1
    if exp < -4 ∨ exp ≥ (eprec : Int) then
      fmtE ((if prec1 > d.mant.length then d.mant.length else prec1) - 1) d
    else
      let prec2 := if (prec1 : Int) > d.exp then d.mant.length else prec1
      fmtF ((prec2 : Int) - d.exp).toNat d

/-- Go: `x.String()`, which is `x.Text('g', 10)`. -/
def BigFloat.String (x : BigFloat) : String :=
  String.mk (x.TextG 10)

/-! ## Data handed in by go-ethereum and the outside world -/

/-- An account address (`common.Address`), as a number. -/
abbrev Address := Nat

/-- A Go `[]byte`: `data` are the `len` visible bytes, `spare` the bytes of the
backing array behind them, so that `cap = data.length + spare.length`. -/
structure ByteSlice where
  data : List Nat
  spare : List Nat
  deriving DecidableEq, Repr

namespace ByteSlice

/-- Go: `len(s)`. -/
def len (s : ByteSlice) : Nat := s.data.length

/-- Go: `cap(s)`. -/
def cap (s : ByteSlice) : Nat := s.data.length + s.spare.length

/-- Go: `s[:hi]`.  The upper bound of a slice expression on a slice is checked
against the capacity; beyond it the expression panics (`none`). -/
def sliceTo (s : ByteSlice) (hi : Nat) : Option ByteSlice :=
  if hi ≤ s.cap then
    some ⟨(s.data ++ s.spare).take hi, (s.data ++ s.spare).drop hi⟩
  else none

/-- Go: `s[lo:]`.  The upper bound defaults to `len(s)`, so the expression
panics (`none`) when `lo > len(s)`. -/
def sliceFrom (s : ByteSlice) (lo : Nat) : Option ByteSlice :=
  if lo ≤ s.len then some ⟨s.data.drop lo, s.spare⟩ else none

end ByteSlice

/-- A transaction as `printTransactionDetails` reads it: `tx.Hash()`,
`tx.Value()`, `tx.To()` (`none` is Go's nil pointer, a contract creation) and
`tx.Data()`. -/
structure Transaction where
  Hash : Nat
  Value : Nat
  To : Option Address
  Data : ByteSlice
  deriving DecidableEq, Repr

/-- The status/message/result envelope `getContractABI` unmarshals into
(`etherscanAPIResponse`, main.go:188-192). -/
structure EtherscanAPIResponse where
  status : String
  message : String
  result : String
  deriving DecidableEq, Repr

/-- A method of a parsed interface, as far as the program reads it: `method.Name`
and the type strings of `method.Inputs`. -/
structure Method where
  name : String
  inputs : List String
  deriving DecidableEq, Repr

/-- Library functions the program calls, as functions of their arguments:
`json.Unmarshal` into the envelope, `abi.JSON`, `ABI.MethodById` and
`Arguments.Unpack`, where an error is `none`; and
`types.LatestSignerForChainID(tx.ChainId())` as a function of the transaction,
where `none` is a panic and `some ()` a signer.  Whether that call can panic
depends on the go-ethereum release: newer ones reject the chain id 0 of an
unprotected legacy transaction with a panic, older ones return a signer for
every transaction. -/
structure Lib (ABI : Type) where
  unmarshal : String → Option EtherscanAPIResponse
  abiJSON : String → Option ABI
  methodById : ABI → List Nat → Option Method
  unpack : Method → List Nat → Option (List String)
  latestSignerForChainID : Transaction → Option Unit

/-- Outcomes of the fallible calls made while one transaction is processed.  Each
call is made at most once per transaction, so one record per transaction fixes
them all: `types.Sender`, `client.CodeAt` on the recipient, `http.Get` on the
registry and `ioutil.ReadAll` of the response body.  An error is `none`. -/
structure TxEnv where
  sender : Option Address
  code : Option (List Nat)
  httpGet : Option Unit
  readAll : Option String
  deriving DecidableEq, Repr

/-- Externally visible actions.  `logAt n` and `printAt n` are the `log.Printf`
and `fmt.Printf`/`fmt.Println` statements on line `n` of main.go; `printAmount eth`
is line 77, which prints the text `eth.String()`. -/
inductive Event
  | headerByNumber
  | blockByHash (hash : Nat)
  | sleep (ms : Nat)
  | logAt (line : Nat)
  | printAt (line : Nat)
  | printAmount (eth : BigFloat)
  | recoverSender
  | codeAt (a : Address)
  | httpGet (a : Address)
  | readAll
  | unmarshal
  | abiJSON
  | methodById
  | unpack
  deriving DecidableEq, Repr

namespace Event

/-- A request to the interface registry. -/
def isRegistryFetch : Event → Bool
  | httpGet _ => true
  | _ => false

/-- A step of call-data decoding: parsing the interface, method lookup,
argument unpacking. -/
def isDecode : Event → Bool
  | abiJSON => true
  | methodById => true
  | unpack => true
  | _ => false

end Event

/-- What running a piece of Go code gives: the trace of its actions and its
result, `none` when it panicked. -/
abbrev Run (α : Type) := List Event × Option α

/-! ## The functions of main.go -/

/-- Go: `getContractABI` (main.go:171-205).  The result is `none` for a non-nil
`error`, `some abi` otherwise. -/
def getContractABI {ABI : Type} (lib : Lib ABI) (env : TxEnv) (contractAddress : Address) :
    List Event × Option String :=
  match env.httpGet with
  | none => ([Event.httpGet contractAddress], none)
  | some _ =>
    match env.readAll with
    | none => ([Event.httpGet contractAddress, Event.readAll], none)
    | some body =>
      let pre := [Event.httpGet contractAddress, Event.readAll, Event.sleep 200, Event.unmarshal]
      match lib.unmarshal body with
      | none => (pre, none)
      | some result =>
        if result.status ≠ "1" ∨ result.message = "NOTOK" then
          (pre ++ [Event.logAt 200], some "")
        else
          (pre, some result.result)

/-- Go: the loop `for i, input := range inputs` (main.go:163-167): one line per
decoded value; `method.Inputs[i]` panics when `i` is out of range. -/
def printInputs (method : Method) : Nat → List String → Run Unit
  | _, [] => ([], some ())
  | i, _ :: rest =>
    match method.inputs.get? i with
    | none => ([], none)
    | some _ =>
      let r := printInputs method (i + 1) rest
      (Event.printAt 166 :: r.1, r.2)

/-- Go: `printContractCallDetails` (main.go:106-168). -/
def printContractCallDetails {ABI : Type} (lib : Lib ABI) (tx : Transaction) (env : TxEnv) :
    Run Unit :=
  match tx.To with
  | none => ([Event.logAt 109], some ())
  | some recipient =>
    let callData := tx.Data
    if callData.len = 0 then ([Event.printAt 115], some ())
    else
      let t1 := [Event.printAt 119, Event.printAt 120]
      match callData.sliceTo 4 with
      | none => (t1, none)
      | some methodID =>
        let t2 := t1 ++ [Event.printAt 124]
        let r := getContractABI lib env recipient
        match r.2 with
        | none => (t2 ++ r.1 ++ [Event.logAt 129], some ())
        | some contractABI =>
          if contractABI = "" then (t2 ++ r.1 ++ [Event.logAt 135], some ())
          else
            match lib.abiJSON contractABI with
            | none => (t2 ++ r.1 ++ [Event.abiJSON, Event.logAt 142], some ())
            | some parsedABI =>
              match lib.methodById parsedABI methodID.data with
              | none =>
                (t2 ++ r.1 ++ [Event.abiJSON, Event.methodById, Event.logAt 149], some ())
              | some method =>
                let t3 := t2 ++ r.1 ++ [Event.abiJSON, Event.methodById, Event.printAt 153]
                match callData.sliceFrom 4 with
                | none => (t3, none)
                | some args =>
                  match lib.unpack method args.data with
                  | none => (t3 ++ [Event.unpack, Event.logAt 158], some ())
                  | some inputs =>
                    let p := printInputs method 0 inputs
                    (t3 ++ [Event.unpack] ++ p.1, p.2)

/-- Go: `isContractTransaction` (main.go:93-103). -/
def isContractTransaction (env : TxEnv) (address : Option Address) : List Event × Bool :=
  match address with
  | none => ([], false)
  | some a =>
    match env.code with
    | none => ([Event.codeAt a, Event.logAt 99], false)
    | some code => ([Event.codeAt a], decide (code.length > 0))

/-- Go: `printTransactionDetails` (main.go:63-84).  Line 66 has three outcomes:
`types.LatestSignerForChainID(tx.ChainId())` panics before `types.Sender` is
called, or `types.Sender` returns an error, or it returns the sender.
`tx.To().Hex()` on line 76 calls a value-receiver method through the pointer
`tx.To()`, which panics on a nil pointer. -/
def printTransactionDetails {ABI : Type} (lib : Lib ABI) (tx : Transaction) (env : TxEnv) :
    Run Unit :=
  match lib.latestSignerForChainID tx with
  | none => ([], none)
  | some _ =>
    match env.sender with
    | none => ([Event.recoverSender, Event.logAt 68], some ())
    | some _ =>
      let t1 := [Event.recoverSender, Event.printAt 73, Event.printAt 74, Event.printAt 75]
      match tx.To with
      | none => (t1, none)
      | some _ =>
        match weiToEth tx.Value with
        | none => (t1 ++ [Event.printAt 76], none)
        | some eth =>
          let t2 := t1 ++ [Event.printAt 76, Event.printAmount eth]
          let c := isContractTransaction env tx.To
          if c.2 then
            let r := printContractCallDetails lib tx env
            (t2 ++ c.1 ++ [Event.printAt 81] ++ r.1, r.2)
          else (t2 ++ c.1, some ())

/-- Go: the loop over `block.Transactions()` (main.go:54-56); a panic ends it. -/
def processTransactions {ABI : Type} (lib : Lib ABI) : List (Transaction × TxEnv) → Run Unit
  | [] => ([], some ())
  | (tx, env) :: rest =>
    let r := printTransactionDetails lib tx env
    match r.2 with
    | none => (r.1, none)
    | some _ =>
      let rs := processTransactions lib rest
      (r.1 ++ rs.1, rs.2)

/-- A block header as the loop reads it: `header.Number` (a `*big.Int`) and
`header.Hash()`. -/
structure Header where
  number : Nat
  hash : Nat
  deriving DecidableEq, Repr

/-- What the chain node answers in one pass of the polling loop: the outcome of
`HeaderByNumber`, and the outcome `BlockByHash` has if it is called (the
transactions of the block, each with the outcomes of its own network calls).
An error is `none`. -/
structure CycleInput where
  header : Option Header
  block : Option (List (Transaction × TxEnv))

/-- State after one pass of the `for` loop of `main`: the variable
`lastBlockNumber`, the actions of the pass, and whether the process is still
running (`false` after a panic). -/
structure CycleResult where
  lastBlockNumber : Nat
  trace : List Event
  running : Bool

/-- Go: `big.Int.Uint64` of a non-negative number: the low 64 bits. -/
def Uint64 (n : Nat) : Nat := n % 2 ^ 64

/-- Go: one pass of the `for` loop of `main` (main.go:33-60). -/
def pollCycle {ABI : Type} (lib : Lib ABI) (lastBlockNumber : Nat) (c : CycleInput) :
    CycleResult :=
  match c.header with
  | none => ⟨lastBlockNumber, [Event.headerByNumber, Event.logAt 36, Event.sleep 10000], true⟩
  | some header =>
    if Uint64 header.number > lastBlockNumber then
      let last := Uint64 header.number
      let t1 := [Event.headerByNumber, Event.printAt 43, Event.blockByHash header.hash]
      match c.block with
      | none => ⟨last, t1 ++ [Event.logAt 48], true⟩
      | some txs =>
        let r := processTransactions lib txs
        match r.2 with
        | none => ⟨last, t1 ++ [Event.printAt 53] ++ r.1, false⟩
        | some _ => ⟨last, t1 ++ [Event.printAt 53] ++ r.1 ++ [Event.sleep 10000], true⟩
    else ⟨lastBlockNumber, [Event.headerByNumber, Event.sleep 10000], true⟩

/-- Go: the `for` loop of `main` over the given node answers, from a given value
of `lastBlockNumber`; it stops at a panic. -/
def pollLoop {ABI : Type} (lib : Lib ABI) : Nat → List CycleInput → CycleResult
  | last, [] => ⟨last, [], true⟩
  | last, c :: rest =>
    let r := pollCycle lib last c
    if r.running then
      let rs := pollLoop lib r.lastBlockNumber rest
      ⟨rs.lastBlockNumber, r.trace ++ rs.trace, rs.running⟩
    else r

/-- Values of `lastBlockNumber` after each pass of the loop, in order. -/
def lastNumbers {ABI : Type} (lib : Lib ABI) : Nat → List CycleInput → List Nat
  | _, [] => []
  | last, c :: rest =>
    let r := pollCycle lib last c
    r.lastBlockNumber :: (if r.running then lastNumbers lib r.lastBlockNumber rest else [])

/-- Go: `main` after the connection is made: `var lastBlockNumber uint64`
starts at zero. -/
def mainLoop {ABI : Type} (lib : Lib ABI) (cycles : List CycleInput) : CycleResult :=
  pollLoop lib 0 cycles

/-- A contract-call transaction: the sender is recovered, the recipient is
present and the code lookup returns at least one byte. -/
def isContractCall (p : Transaction × TxEnv) : Bool :=
  p.2.sender.isSome && p.1.To.isSome &&
    (match p.2.code with
     | some code => decide (0 < code.length)
     | none => false)

/-! ## Sample inputs -/

/-- A library whose JSON decoder is `unmarshal`, whose interface parser rejects
every text and whose signer constructor never panics. -/
def stubLib (unmarshal : String → Option EtherscanAPIResponse) : Lib Unit :=
  ⟨unmarshal, fun _ => none, fun _ _ => none, fun _ _ => none, fun _ => some ()⟩

/-- The library `stubLib` with the signer constructor of a newer go-ethereum
release: it panics on the transactions for which `unprotected` holds. -/
def strictLib (unmarshal : String → Option EtherscanAPIResponse)
    (unprotected : Transaction → Bool) : Lib Unit :=
  ⟨unmarshal, fun _ => none, fun _ _ => none, fun _ _ => none,
    fun tx => if unprotected tx then none else some ()⟩

/-- A registry answer for a contract without verified source. -/
def unverifiedReply : EtherscanAPIResponse :=
  ⟨"0", "NOTOK", "Contract source code not verified"⟩

/-- Outcomes for a transaction sent to a contract whose registry request is
answered with a body. -/
def callEnv : TxEnv := ⟨some 1, some [96, 128], some (), some "body"⟩

/-- A call of four selector bytes to the contract at address 7. -/
def callTx : Transaction := ⟨100, 0, some 7, ⟨[169, 5, 156, 187], []⟩⟩

/-! ## Polling loop -/

theorem pollCycle_of_gt {ABI : Type} (lib : Lib ABI) (last : Nat) (c : CycleInput) (h : Header)
    (hh : c.header = some h) (hgt : Uint64 h.number > last) :
    (pollCycle lib last c).lastBlockNumber = Uint64 h.number := by
  cases hb : c.block with
  | none => simp [pollCycle, hh, hgt, hb]
  | some txs =>
    cases hr : (processTransactions lib txs).2 with
    | none => simp [pollCycle, hh, hgt, hb, hr]
    | some u => simp [pollCycle, hh, hgt, hb, hr]

theorem pollCycle_of_not_gt {ABI : Type} (lib : Lib ABI) (last : Nat) (c : CycleInput)
    (h : Header) (hh : c.header = some h) (hgt : ¬ Uint64 h.number > last) :
    pollCycle lib last c = ⟨last, [Event.headerByNumber, Event.sleep 10000], true⟩ := by
  simp [pollCycle, hh, hgt]

theorem pollCycle_of_header_error {ABI : Type} (lib : Lib ABI) (last : Nat) (c : CycleInput)
    (hh : c.header = none) :
    pollCycle lib last c =
      ⟨last, [Event.headerByNumber, Event.logAt 36, Event.sleep 10000], true⟩ := by
  simp [pollCycle, hh]

theorem pollCycle_le {ABI : Type} (lib : Lib ABI) (last : Nat) (c : CycleInput) :
    last ≤ (pollCycle lib last c).lastBlockNumber := by
  cases hh : c.header with
  | none => rw [pollCycle_of_header_error lib last c hh]
  | some h =>
    by_cases hgt : Uint64 h.number > last
    · rw [pollCycle_of_gt lib last c h hh hgt]
      exact le_of_lt hgt
    · rw [pollCycle_of_not_gt lib last c h hh hgt]

theorem lastNumbers_chain {ABI : Type} (lib : Lib ABI) (cs : List CycleInput) :
    ∀ last : Nat, List.Chain (fun a b => a ≤ b) last (lastNumbers lib last cs) := by
  induction cs with
  | nil => intro last; exact List.Chain.nil
  | cons c rest ih =>
    intro last
    unfold lastNumbers
    refine List.Chain.cons (pollCycle_le lib last c) ?_
    by_cases hr : (pollCycle lib last c).running = true
    · simp only [hr, if_true]
      exact ih _
    · simp only [hr]
      exact List.Chain.nil

theorem pollLoop_le {ABI : Type} (lib : Lib ABI) (cs : List CycleInput) :
    ∀ last : Nat, last ≤ (pollLoop lib last cs).lastBlockNumber := by
  induction cs with
  | nil => intro last; exact le_rfl
  | cons c rest ih =>
    intro last
    unfold pollLoop
    by_cases hr : (pollCycle lib last c).running = true
    · simp only [hr, if_true]
      exact le_trans (pollCycle_le lib last c) (ih _)
    · simp only [hr]
      exact pollCycle_le lib last c

theorem pollLoop_lastBlockNumber {ABI : Type} (lib : Lib ABI) (cs : List CycleInput) :
    ∀ last : Nat,
      (pollLoop lib last cs).lastBlockNumber = (lastNumbers lib last cs).getLastD last := by
  induction cs with
  | nil => intro last; rfl
  | cons c rest ih =>
    intro last
    unfold pollLoop lastNumbers
    by_cases hr : (pollCycle lib last c).running = true
    · simp only [hr, if_true]
      rw [ih]
      cases lastNumbers lib (pollCycle lib last c).lastBlockNumber rest <;> rfl
    · simp only [hr]
      rfl

/-- C9: over every sequence of header and block outcomes the value of
`lastBlockNumber` never decreases from one pass of the loop to the next (nor
over the whole run); a pass whose head number is not strictly greater than
`lastBlockNumber`, or whose header fetch fails, leaves it unchanged; and a pass
that changes it sets it to a strictly greater value. -/
theorem C9_lastBlockNumber_non_decreasing {ABI : Type} (lib : Lib ABI) (last : Nat)
    (cs : List CycleInput) (c : CycleInput) :
    List.Chain (fun a b => a ≤ b) last (lastNumbers lib last cs) ∧
    last ≤ (pollLoop lib last cs).lastBlockNumber ∧
    (∀ h : Header, c.header = some h → ¬ Uint64 h.number > last →
      (pollCycle lib last c).lastBlockNumber = last) ∧
    (c.header = none → (pollCycle lib last c).lastBlockNumber = last) ∧
    ((pollCycle lib last c).lastBlockNumber ≠ last →
      last < (pollCycle lib last c).lastBlockNumber) := by
  refine ⟨lastNumbers_chain lib cs last, pollLoop_le lib cs last, ?_, ?_, ?_⟩
  · intro h hh hgt
    rw [pollCycle_of_not_gt lib last c h hh hgt]
  · intro hh
    rw [pollCycle_of_header_error lib last c hh]
  · intro hne
    exact lt_of_le_of_ne (pollCycle_le lib last c) (Ne.symm hne)

/-- C9 at a concrete run: from 5, a head at 3 leaves 5 and a head at 8 whose
block fetch fails moves to 8. -/
theorem C9_lastBlockNumber_non_decreasing_witness :
    (pollCycle (stubLib fun _ => none) 5 ⟨some ⟨3, 9⟩, none⟩).lastBlockNumber = 5 ∧
    5 < (pollCycle (stubLib fun _ => none) 5 ⟨some ⟨8, 9⟩, none⟩).lastBlockNumber :=
  ⟨(C9_lastBlockNumber_non_decreasing (stubLib fun _ => none) 5 [] ⟨some ⟨3, 9⟩, none⟩).2.2.1
      ⟨3, 9⟩ rfl (by decide),
   (C9_lastBlockNumber_non_decreasing (stubLib fun _ => none) 5 [] ⟨some ⟨8, 9⟩, none⟩).2.2.2.2
      (by decide)⟩

/-- C1 fails as stated: with `lastBlockNumber = 0`, a head at number 5 whose
block-by-hash fetch fails leaves `lastBlockNumber = 5`, not 0, and the next
pass over the same head fetches no block. -/
theorem C1_counterexample :
    (pollCycle (stubLib fun _ => none) 0 ⟨some ⟨5, 9⟩, none⟩).lastBlockNumber = 5 ∧
    (pollCycle (stubLib fun _ => none) 0 ⟨some ⟨5, 9⟩, none⟩).lastBlockNumber ≠ 0 ∧
    (pollLoop (stubLib fun _ => none) 0 [⟨some ⟨5, 9⟩, none⟩, ⟨some ⟨5, 9⟩, some []⟩]).trace =
      [Event.headerByNumber, Event.printAt 43, Event.blockByHash 9, Event.logAt 48,
       Event.headerByNumber, Event.sleep 10000] := by
  decide

/-- C1 as amended: `lastBlockNumber` advances when the header is seen, before
the block is fetched.  For every pass whose header fetch succeeds with a number
strictly greater than `lastBlockNumber`, the value after the pass is the head
number, whatever the block-by-hash fetch gives; and when that fetch fails, a
following pass that sees the same head asks for no block. -/
theorem C1_advances_on_header {ABI : Type} (lib : Lib ABI) (last : Nat) (c : CycleInput)
    (h : Header) (hh : c.header = some h) (hgt : Uint64 h.number > last) :
    (pollCycle lib last c).lastBlockNumber = Uint64 h.number ∧
    (c.block = none → ∀ c2 : CycleInput, c2.header = some h →
      pollCycle lib (pollCycle lib last c).lastBlockNumber c2 =
        ⟨Uint64 h.number, [Event.headerByNumber, Event.sleep 10000], true⟩) := by
  refine ⟨pollCycle_of_gt lib last c h hh hgt, ?_⟩
  intro _ c2 h2
  rw [pollCycle_of_gt lib last c h hh hgt]
  exact pollCycle_of_not_gt lib _ c2 h h2 (lt_irrefl _)

/-- C1 as amended, at `lastBlockNumber = 0` and a head at 5 whose block fetch
fails. -/
theorem C1_advances_on_header_witness :
    Uint64 5 > 0 ∧
    (pollCycle (stubLib fun _ => none) 0 ⟨some ⟨5, 9⟩, none⟩).lastBlockNumber = Uint64 5 :=
  ⟨by decide,
   (C1_advances_on_header (stubLib fun _ => none) 0 ⟨some ⟨5, 9⟩, none⟩ ⟨5, 9⟩ rfl
      (by decide)).1⟩

/-- C7: the code at a failed block fetch.  With `lastBlockNumber = 0` the head is
at 1 and `BlockByHash` fails: line 48 logs and `continue` starts the next pass,
whose `HeaderByNumber` request follows with no sleep in between.  The header
failure path (first pass below) does sleep. -/
theorem C7_block_failure_retries_at_once :
    (mainLoop (stubLib fun _ => none) [⟨none, none⟩, ⟨some ⟨1, 11⟩, none⟩, ⟨none, none⟩]).trace =
      [Event.headerByNumber, Event.logAt 36, Event.sleep 10000,
       Event.headerByNumber, Event.printAt 43, Event.blockByHash 11, Event.logAt 48,
       Event.headerByNumber, Event.logAt 36, Event.sleep 10000] := by
  decide

/-! ## Transaction classification -/

theorem NewFloat_1e18 :
    BigFloat.NewFloat 1000000000000000000 = BigFloat.finite 53 7812500000000000 7 := by
  decide

theorem weiToEth_isSome (wei : Nat) : ∃ f : BigFloat, weiToEth wei = some f := by
  unfold weiToEth
  rw [NewFloat_1e18]
  cases BigFloat.SetInt wei <;> simp [BigFloat.Quo]

/-- C2: when the recipient is present and the code lookup returns zero bytes,
`isContractTransaction` is false and the trace of `printTransactionDetails`
holds no registry request and no decoding step, whatever the call data, the
signer construction, the sender recovery and the library do; and unless the
signer construction on line 66 panics, `printTransactionDetails` returns
normally. -/
theorem C2_empty_code_is_transfer {ABI : Type} (lib : Lib ABI) (tx : Transaction) (env : TxEnv)
    (a : Address) (code : List Nat) (hto : tx.To = some a) (hcode : env.code = some code)
    (hlen : code.length = 0) :
    (isContractTransaction env tx.To).2 = false ∧
    (∀ e ∈ (printTransactionDetails lib tx env).1,
      e.isRegistryFetch = false ∧ e.isDecode = false) ∧
    (lib.latestSignerForChainID tx ≠ none →
      (printTransactionDetails lib tx env).2 = some ()) := by
  have hc : (isContractTransaction env tx.To) = ([Event.codeAt a], false) := by
    simp [isContractTransaction, hto, hcode, hlen]
  obtain ⟨f, hf⟩ := weiToEth_isSome tx.Value
  cases hsig : lib.latestSignerForChainID tx with
  | none => simp [printTransactionDetails, hsig, hc]
  | some u =>
    cases hs : env.sender with
    | none =>
      simp [printTransactionDetails, hsig, hs, hc, Event.isRegistryFetch, Event.isDecode]
    | some sd =>
      simp [printTransactionDetails, hsig, hs, hto, hf, hc]
      rw [← hto, hc]
      simp [Event.isRegistryFetch, Event.isDecode]

/-- C2 at a transaction with non-empty call data sent to an address without
code, with a signer constructor that returns and with one that panics. -/
theorem C2_empty_code_is_transfer_witness :
    ((isContractTransaction ⟨some 1, some [], some (), some "body"⟩
        (Transaction.mk 100 5 (some 7) ⟨[169, 5, 156, 187, 0], []⟩).To).2 = false ∧
      (∀ e ∈ (printTransactionDetails (stubLib fun _ => some unverifiedReply)
          ⟨100, 5, some 7, ⟨[169, 5, 156, 187, 0], []⟩⟩
          ⟨some 1, some [], some (), some "body"⟩).1,
        e.isRegistryFetch = false ∧ e.isDecode = false) ∧
      (printTransactionDetails (stubLib fun _ => some unverifiedReply)
          ⟨100, 5, some 7, ⟨[169, 5, 156, 187, 0], []⟩⟩
          ⟨some 1, some [], some (), some "body"⟩).2 = some ()) ∧
    ∀ e ∈ (printTransactionDetails (strictLib (fun _ => some unverifiedReply) (fun _ => true))
        ⟨100, 5, some 7, ⟨[169, 5, 156, 187, 0], []⟩⟩
        ⟨some 1, some [], some (), some "body"⟩).1,
      e.isRegistryFetch = false ∧ e.isDecode = false :=
  ⟨⟨(C2_empty_code_is_transfer (stubLib fun _ => some unverifiedReply)
      ⟨100, 5, some 7, ⟨[169, 5, 156, 187, 0], []⟩⟩ ⟨some 1, some [], some (), some "body"⟩
      7 [] rfl rfl rfl).1,
    (C2_empty_code_is_transfer (stubLib fun _ => some unverifiedReply)
      ⟨100, 5, some 7, ⟨[169, 5, 156, 187, 0], []⟩⟩ ⟨some 1, some [], some (), some "body"⟩
      7 [] rfl rfl rfl).2.1,
    (C2_empty_code_is_transfer (stubLib fun _ => some unverifiedReply)
      ⟨100, 5, some 7, ⟨[169, 5, 156, 187, 0], []⟩⟩ ⟨some 1, some [], some (), some "body"⟩
      7 [] rfl rfl rfl).2.2 (by decide)⟩,
   (C2_empty_code_is_transfer (strictLib (fun _ => some unverifiedReply) (fun _ => true))
      ⟨100, 5, some 7, ⟨[169, 5, 156, 187, 0], []⟩⟩ ⟨some 1, some [], some (), some "body"⟩
      7 [] rfl rfl rfl).2.1⟩

theorem printTransactionDetails_creation {ABI : Type} (lib : Lib ABI) (tx : Transaction)
    (env : TxEnv) (s : Address) (hsig : lib.latestSignerForChainID tx = some ())
    (hto : tx.To = none) (hs : env.sender = some s) :
    printTransactionDetails lib tx env =
      ([Event.recoverSender, Event.printAt 73, Event.printAt 74, Event.printAt 75], none) := by
  simp [printTransactionDetails, hsig, hto, hs]

theorem printContractCallDetails_short {ABI : Type} (lib : Lib ABI) (tx : Transaction)
    (env : TxEnv) (a : Address) (hto : tx.To = some a) (h0 : 0 < tx.Data.len)
    (h4 : tx.Data.cap < 4) :
    printContractCallDetails lib tx env = ([Event.printAt 119, Event.printAt 120], none) := by
  have hne : ¬ tx.Data.len = 0 := by omega
  have hcap : ¬ 4 ≤ tx.Data.cap := by omega
  simp [printContractCallDetails, hto, hne, ByteSlice.sliceTo, hcap]

/-- C6: the code at a contract creation.  The recipient is absent and the sender
is recovered: after the separator, hash and sender lines, `tx.To().Hex()` on
line 76 dereferences the nil recipient and the function panics; the nil checks
of `isContractTransaction` and `printContractCallDetails` are never reached. -/
theorem C6_creation_panics :
    printTransactionDetails (stubLib fun _ => none) ⟨100, 0, none, ⟨[96, 128, 96, 64, 82], []⟩⟩
        ⟨some 1, none, none, none⟩ =
      ([Event.recoverSender, Event.printAt 73, Event.printAt 74, Event.printAt 75], none) := by
  decide

/-- C3: the code at call data of one to three bytes.  Only the length 0 is
guarded (line 114).  One byte with no spare capacity: `callData[:4]` on line 123
panics.  One byte in a backing array of four: the selector is read past the
end of the data and the registry is asked.  Zero bytes: returns at line 116. -/
theorem C3_short_call_data :
    printContractCallDetails (stubLib fun _ => some unverifiedReply)
        ⟨100, 0, some 7, ⟨[169], []⟩⟩ callEnv =
      ([Event.printAt 119, Event.printAt 120], none) ∧
    printContractCallDetails (stubLib fun _ => some unverifiedReply)
        ⟨100, 0, some 7, ⟨[169], [0, 0, 0]⟩⟩ callEnv =
      ([Event.printAt 119, Event.printAt 120, Event.printAt 124, Event.httpGet 7,
        Event.readAll, Event.sleep 200, Event.unmarshal, Event.logAt 200, Event.logAt 135],
       some ()) ∧
    printContractCallDetails (stubLib fun _ => some unverifiedReply)
        ⟨100, 0, some 7, ⟨[], []⟩⟩ callEnv =
      ([Event.printAt 115], some ()) := by
  decide

/-! ## Registry client -/

/-- C8: the code at a registry request that fails.  A failed `http.Get` returns
on line 175 and a failed body read on line 181, both before the sleep of line
185; two contract calls whose requests fail give two registry requests with no
sleep anywhere in the trace. -/
theorem C8_no_delay_on_transport_failure :
    getContractABI (stubLib fun _ => none) ⟨some 1, some [96], none, none⟩ 7 =
      ([Event.httpGet 7], none) ∧
    getContractABI (stubLib fun _ => none) ⟨some 1, some [96], some (), none⟩ 7 =
      ([Event.httpGet 7, Event.readAll], none) ∧
    (processTransactions (stubLib fun _ => none)
        [(callTx, ⟨some 1, some [96], none, none⟩),
         (callTx, ⟨some 1, some [96], none, none⟩)]).1.filter
        (fun e => e.isRegistryFetch || decide (e = Event.sleep 200)) =
      [Event.httpGet 7, Event.httpGet 7] := by
  decide

/-- C5 fails as stated: an envelope with status "1" and message "NOTOK" has a
success status, yet the result text is dropped and the empty marker returned. -/
theorem C5_counterexample :
    (getContractABI (stubLib fun _ => some ⟨"1", "NOTOK", "[abi]"⟩) callEnv 7).2 = some "" ∧
    (getContractABI (stubLib fun _ => some ⟨"1", "NOTOK", "[abi]"⟩) callEnv 7).2 ≠
      some "[abi]" := by
  decide

/-- C5 as amended: for a body that parses as the envelope, `getContractABI`
returns the result text unchanged when the status is "1" and the message is not
"NOTOK", and the empty string otherwise, in both cases without error; it
returns an error exactly when `http.Get` fails, the body cannot be read, or the
body does not parse. -/
theorem C5_status_and_message {ABI : Type} (lib : Lib ABI) (env : TxEnv) (a : Address) :
    (∀ (body : String) (r : EtherscanAPIResponse),
      env.httpGet = some () → env.readAll = some body → lib.unmarshal body = some r →
      (getContractABI lib env a).2 =
        some (if r.status = "1" ∧ r.message ≠ "NOTOK" then r.result else "")) ∧
    ((getContractABI lib env a).2 = none ↔
      env.httpGet = none ∨ env.readAll = none ∨
        ∃ body : String, env.readAll = some body ∧ lib.unmarshal body = none) := by
  constructor
  · intro body r hget hread hparse
    by_cases h1 : r.status = "1" <;> by_cases h2 : r.message = "NOTOK" <;>
      simp [getContractABI, hget, hread, hparse, h1, h2]
  · cases hget : env.httpGet with
    | none => simp [getContractABI, hget]
    | some u =>
      cases hread : env.readAll with
      | none => simp [getContractABI, hget, hread]
      | some body =>
        cases hparse : lib.unmarshal body with
        | none => simp [getContractABI, hget, hread, hparse]
        | some r =>
          by_cases h : r.status ≠ "1" ∨ r.message = "NOTOK" <;>
            simp [getContractABI, hget, hread, hparse, h]

/-- C5 as amended, at a verified contract (status "1", message "OK") and at an
unverified one. -/
theorem C5_status_and_message_witness :
    (getContractABI (stubLib fun _ => some ⟨"1", "OK", "[abi]"⟩) callEnv 7).2 = some "[abi]" ∧
    (getContractABI (stubLib fun _ => some unverifiedReply) callEnv 7).2 = some "" :=
  ⟨(C5_status_and_message (stubLib fun _ => some ⟨"1", "OK", "[abi]"⟩) callEnv 7).1
      "body" ⟨"1", "OK", "[abi]"⟩ rfl rfl rfl,
   (C5_status_and_message (stubLib fun _ => some unverifiedReply) callEnv 7).1
      "body" unverifiedReply rfl rfl rfl⟩

/-! ## Registry requests per contract call -/

theorem count_getContractABI {ABI : Type} (lib : Lib ABI) (env : TxEnv) (a b : Address) :
    (getContractABI lib env a).1.count (Event.httpGet b) = if a = b then 1 else 0 := by
  by_cases hab : a = b
  · rw [if_pos hab]
    unfold getContractABI
    repeat' split
    all_goals simp [List.count_cons, hab]
  · rw [if_neg hab]
    unfold getContractABI
    repeat' split
    all_goals simp [List.count_cons, hab]

theorem count_printInputs (method : Method) (b : Address) (vs : List String) :
    ∀ i : Nat, (printInputs method i vs).1.count (Event.httpGet b) = 0 := by
  induction vs with
  | nil => intro i; simp [printInputs]
  | cons v rest ih =>
    intro i
    unfold printInputs
    split
    · simp
    · simp [List.count_cons, ih]

theorem count_printContractCallDetails_aux {ABI : Type} (lib : Lib ABI) (tx : Transaction)
    (env : TxEnv) (a b : Address) (n : Nat) (hto : tx.To = some a) (hlen : ¬ tx.Data.len = 0)
    (hg : (getContractABI lib env a).1.count (Event.httpGet b) = n) :
    (printContractCallDetails lib tx env).2 = some () →
    (printContractCallDetails lib tx env).1.count (Event.httpGet b) = n := by
  have hp := count_printInputs
  unfold printContractCallDetails
  rw [hto]
  simp only [hlen, if_false]
  repeat' split
  all_goals simp [List.count_cons, hg, hp]

theorem count_printContractCallDetails {ABI : Type} (lib : Lib ABI) (tx : Transaction)
    (env : TxEnv) (a b : Address) (hto : tx.To = some a)
    (hrun : (printContractCallDetails lib tx env).2 = some ()) :
    (printContractCallDetails lib tx env).1.count (Event.httpGet b) =
      if tx.To = some b ∧ tx.Data.len ≠ 0 then 1 else 0 := by
  by_cases hlen : tx.Data.len = 0
  · simp [printContractCallDetails, hto, hlen, List.count_cons]
  · rw [count_printContractCallDetails_aux lib tx env a b _ hto hlen
      (count_getContractABI lib env a b) hrun]
    simp [hto, hlen]

theorem isContractCall_iff {tx : Transaction} {env : TxEnv} :
    isContractCall (tx, env) = true ↔
      ∃ (s a : Address) (code : List Nat),
        env.sender = some s ∧ tx.To = some a ∧ env.code = some code ∧ 0 < code.length := by
  unfold isContractCall
  cases hs : env.sender <;> cases hto : tx.To <;> cases hc : env.code <;> simp

theorem printTransactionDetails_contractCall {ABI : Type} (lib : Lib ABI) (tx : Transaction)
    (env : TxEnv) (hsig : lib.latestSignerForChainID tx = some ())
    (h : isContractCall (tx, env) = true) :
    ∃ (a : Address) (pre : List Event), tx.To = some a ∧
      (∀ b : Address, pre.count (Event.httpGet b) = 0) ∧
      printTransactionDetails lib tx env =
        (pre ++ (printContractCallDetails lib tx env).1,
         (printContractCallDetails lib tx env).2) := by
  obtain ⟨s, a, code, hs, hto, hcode, hlen⟩ := isContractCall_iff.1 h
  obtain ⟨f, hf⟩ := weiToEth_isSome tx.Value
  have hc : isContractTransaction env (some a) = ([Event.codeAt a], true) := by
    simp [isContractTransaction, hcode, hlen]
  refine ⟨a, [Event.recoverSender, Event.printAt 73, Event.printAt 74, Event.printAt 75,
    Event.printAt 76, Event.printAmount f, Event.codeAt a, Event.printAt 81], hto, ?_, ?_⟩
  · intro b
    simp [List.count_cons]
  · unfold printTransactionDetails
    simp only [hsig, hs, hto, hf, hc]
    simp

/-- C4 fails as stated: two contract calls to the contract at address 7, each
answered "not verified" by the registry, issue two registry requests for that
address. -/
theorem C4_counterexample :
    (processTransactions (stubLib fun _ => some unverifiedReply)
        [(callTx, callEnv), (callTx, callEnv)]).1.count (Event.httpGet 7) = 2 ∧
    (printContractCallDetails (stubLib fun _ => some unverifiedReply) callTx callEnv).1 =
      [Event.printAt 119, Event.printAt 120, Event.printAt 124, Event.httpGet 7,
       Event.readAll, Event.sleep 200, Event.unmarshal, Event.logAt 200, Event.logAt 135] := by
  decide

/-- C4 as amended: there is no interface cache.  Over every sequence of
contract-call transactions processed without a panic, and for every address,
the number of registry requests for that address equals the number of
transactions in the sequence sent to it with non-empty call data: one request
per such call, whatever earlier requests for the address returned. -/
theorem C4_one_fetch_per_call {ABI : Type} (lib : Lib ABI) (txs : List (Transaction × TxEnv))
    (b : Address) (hcall : ∀ p ∈ txs, isContractCall p = true)
    (hrun : (processTransactions lib txs).2 = some ()) :
    (processTransactions lib txs).1.count (Event.httpGet b) =
      txs.countP (fun p => decide (p.1.To = some b ∧ p.1.Data.len ≠ 0)) := by
  induction txs with
  | nil => simp [processTransactions]
  | cons p rest ih =>
    obtain ⟨tx, env⟩ := p
    have hp : isContractCall (tx, env) = true := hcall _ (List.mem_cons_self _ _)
    have hsig : lib.latestSignerForChainID tx = some () := by
      cases hsg : lib.latestSignerForChainID tx with
      | none => simp [processTransactions, printTransactionDetails, hsg] at hrun
      | some u => rfl
    obtain ⟨a, pre, hto, hpre, heq⟩ :=
      printTransactionDetails_contractCall lib tx env hsig hp
    unfold processTransactions at hrun ⊢
    rw [heq] at hrun ⊢
    cases hr : (printContractCallDetails lib tx env).2 with
    | none => simp [hr] at hrun
    | some u =>
      simp only [hr] at hrun ⊢
      have hrest := ih (fun q hq => hcall q (List.mem_cons_of_mem _ hq)) hrun
      have hone := count_printContractCallDetails lib tx env a b hto hr
      rw [List.count_append, List.count_append, hpre, hone, hrest, List.countP_cons]
      simp only [decide_eq_true_eq]
      omega

/-- C4 as amended, at two calls to the contract at address 7. -/
theorem C4_one_fetch_per_call_witness :
    (processTransactions (stubLib fun _ => some unverifiedReply)
        [(callTx, callEnv), (callTx, callEnv)]).1.count (Event.httpGet 7) =
      [(callTx, callEnv), (callTx, callEnv)].countP
        (fun p => decide (p.1.To = some 7 ∧ p.1.Data.len ≠ 0)) :=
  C4_one_fetch_per_call (stubLib fun _ => some unverifiedReply)
    [(callTx, callEnv), (callTx, callEnv)] 7
    (by
      intro p hp
      simp only [List.mem_cons, List.mem_singleton, List.not_mem_nil, or_false, or_self] at hp
      subst hp
      rfl)
    (by decide)

/-! ## Rounding of `weiToEth` -/

theorem bitLenAux_spec : ∀ (fuel n : Nat), n ≤ fuel → 0 < n →
    0 < bitLenAux fuel n ∧ 2 ^ (bitLenAux fuel n - 1) ≤ n ∧ n < 2 ^ bitLenAux fuel n := by
  intro fuel
  induction fuel with
  | zero => intro n hn hpos; omega
  | succ k ih =>
    intro n hn hpos
    unfold bitLenAux
    rw [if_neg (by omega)]
    by_cases h1 : n / 2 = 0
    · have hn1 : n = 1 := by omega
      subst hn1
      cases k <;> simp [bitLenAux]
    · obtain ⟨hp, hlo, hhi⟩ := ih (n / 2) (by omega) (by omega)
      refine ⟨by omega, ?_, ?_⟩
      · have : bitLenAux k (n / 2) + 1 - 1 = (bitLenAux k (n / 2) - 1) + 1 := by omega
        rw [this, pow_succ]
        omega
      · rw [pow_succ]
        omega

theorem bitLen_spec (n : Nat) (hpos : 0 < n) :
    0 < bitLen n ∧ 2 ^ (bitLen n - 1) ≤ n ∧ n < 2 ^ bitLen n :=
  bitLenAux_spec n n le_rfl hpos

/-- Cutting `t ≥ 1` bits with `roundMant` moves the mantissa by at most one half
from the exact quotient `(q + s) / 2 ^ t`. -/
theorem roundMant_close (q t : Nat) (sbit : Bool) (s : ℚ) (ht : 0 < t) (hs0 : 0 ≤ s)
    (hs1 : s < 1) (hsb : sbit = false → s = 0) :
    |((BigFloat.roundMant q t sbit : Nat) : ℚ) - ((q : ℚ) + s) / (2 : ℚ) ^ t| ≤ 1 / 2 := by
  obtain ⟨u, rfl⟩ : ∃ u, t = u + 1 := ⟨t - 1, by omega⟩
  set h : Nat := 2 ^ u with hh
  have hpos : 0 < h := by positivity
  have hT : (2 : ℚ) ^ (u + 1) = 2 * (h : ℚ) := by
    rw [hh]; push_cast; ring
  have hdiv : q / 2 ^ (u + 1) = q / h / 2 := by
    rw [pow_succ, Nat.div_div_eq_div_mul]
  have hq1 : h * (q / h) + q % h = q := Nat.div_add_mod q h
  have hq2 : 2 * (q / h / 2) + (q / h) % 2 = q / h := Nat.div_add_mod (q / h) 2
  have hl : q % h < h := Nat.mod_lt _ hpos
  have hr : (q / h) % 2 < 2 := Nat.mod_lt _ (by norm_num)
  set m : Nat := q / h / 2 with hm
  set r : Nat := (q / h) % 2 with hr'
  set l : Nat := q % h with hl'
  have hqQ : (q : ℚ) = (h : ℚ) * (2 * (m : ℚ) + (r : ℚ)) + (l : ℚ) := by
    have : q = h * (2 * m + r) + l := by rw [hq2]; exact hq1.symm
    exact_mod_cast this
  have hlQ : (l : ℚ) + 1 ≤ (h : ℚ) := by exact_mod_cast hl
  have hl0 : (0 : ℚ) ≤ (l : ℚ) := Nat.cast_nonneg _
  have hhQ : (0 : ℚ) < (h : ℚ) := by exact_mod_cast hpos
  rw [hT, abs_le]
  unfold BigFloat.roundMant
  simp only [Nat.add_sub_cancel, hdiv]
  rw [← hr', ← hl']
  have key : ∀ m1 : ℚ, (-(h : ℚ) ≤ 2 * h * m1 - (q + s) ∧ 2 * h * m1 - (q + s) ≤ h) →
      (-(1 / 2) ≤ m1 - ((q : ℚ) + s) / (2 * (h : ℚ)) ∧ m1 - ((q : ℚ) + s) / (2 * (h : ℚ)) ≤ 1 / 2) := by
    intro m1 ⟨h1, h2⟩
    have h2h : (0 : ℚ) < 2 * h := by linarith
    have e : m1 - ((q : ℚ) + s) / (2 * (h : ℚ)) = (2 * h * m1 - (q + s)) / (2 * (h : ℚ)) := by
      field_simp
      ring
    rw [e]
    constructor
    · rw [le_div_iff₀ h2h]
      linarith
    · rw [div_le_iff₀ h2h]
      linarith
  apply key
  have hr01 : r = 0 ∨ r = 1 := by omega
  rcases hr01 with h0 | h1
  · have hrQ : (r : ℚ) = 0 := by exact_mod_cast h0
    simp only [h0, zero_ne_one, decide_False, Bool.false_and, Bool.false_eq_true, if_false]
    rw [hqQ, hrQ]
    constructor <;> nlinarith
  · have hrQ : (r : ℚ) = 1 := by exact_mod_cast h1
    simp only [h1, decide_True, Bool.true_and]
    by_cases hinc : (sbit || decide (l ≠ 0) || decide (m % 2 = 1)) = true
    · rw [if_pos hinc, hqQ, hrQ]
      push_cast
      constructor <;> nlinarith
    · rw [if_neg hinc]
      simp only [Bool.or_eq_true, decide_eq_true_eq, not_or, Bool.not_eq_true] at hinc
      obtain ⟨⟨hsf, hl0'⟩, _⟩ := hinc
      have hs : s = 0 := hsb hsf
      have hlz : (l : ℚ) = 0 := by
        have : l = 0 := by simpa using hl0'
        exact_mod_cast this
      rw [hqQ, hrQ, hs, hlz]
      constructor <;> nlinarith

theorem bitLen_zero : bitLen 0 = 0 := rfl

/-- Rounding a mantissa of more than `p` bits gives a finite value of precision
`p` within relative error `2 ^ (-p)` of the exact value `(q + s) * 2 ^ e`. -/
theorem round_close (p q : Nat) (e : Int) (sbit : Bool) (s : ℚ) (hp : 0 < p)
    (hb : p < bitLen q) (hs0 : 0 ≤ s) (hs1 : s < 1) (hsb : sbit = false → s = 0) :
    (BigFloat.round p q e sbit).isFinite = true ∧ (BigFloat.round p q e sbit).prec = p ∧
    |(BigFloat.round p q e sbit).toRat - ((q : ℚ) + s) * (2 : ℚ) ^ e| * (2 : ℚ) ^ p ≤
      ((q : ℚ) + s) * (2 : ℚ) ^ e := by
  have hq : 0 < q := by
    rcases Nat.eq_zero_or_pos q with h0 | h0
    · rw [h0, bitLen_zero] at hb; omega
    · exact h0
  obtain ⟨_, hlo, _⟩ := bitLen_spec q hq
  obtain ⟨t, hbt⟩ : ∃ t, bitLen q = p + t := ⟨bitLen q - p, by omega⟩
  have ht0 : 0 < t := by omega
  have hclose := roundMant_close q t sbit s ht0 hs0 hs1 hsb
  have hE : (0 : ℚ) < (2 : ℚ) ^ e := zpow_pos (by norm_num) e
  have hT : (0 : ℚ) < (2 : ℚ) ^ t := by positivity
  obtain ⟨p1, rfl⟩ : ∃ p1, p = p1 + 1 := ⟨p - 1, by omega⟩
  have hmu : (2 : ℚ) ^ p1 * (2 : ℚ) ^ t ≤ (q : ℚ) + s := by
    have h1 : 2 ^ p1 * 2 ^ t ≤ q := by
      rw [← pow_add]
      have : bitLen q - 1 = p1 + t := by omega
      rw [← this]; exact hlo
    have h2 : ((2 ^ p1 * 2 ^ t : Nat) : ℚ) ≤ (q : ℚ) := by exact_mod_cast h1
    push_cast at h2
    linarith
  have hval : (BigFloat.round (p1 + 1) q e sbit).isFinite = true ∧
      (BigFloat.round (p1 + 1) q e sbit).prec = p1 + 1 ∧
      (BigFloat.round (p1 + 1) q e sbit).toRat =
        ((BigFloat.roundMant q t sbit : Nat) : ℚ) * ((2 : ℚ) ^ e * (2 : ℚ) ^ t) := by
    unfold BigFloat.round
    rw [if_neg (by omega)]
    simp only []
    rw [if_neg (by omega)]
    have htt : bitLen q - (p1 + 1) = t := by omega
    rw [htt]
    by_cases hov : BigFloat.roundMant q t sbit = 2 ^ (p1 + 1)
    · rw [if_pos hov, hov]
      refine ⟨rfl, rfl, ?_⟩
      simp only [BigFloat.toRat, Nat.add_sub_cancel]
      rw [zpow_add₀ (by norm_num), zpow_add₀ (by norm_num), zpow_natCast]
      push_cast
      ring
    · rw [if_neg hov]
      refine ⟨rfl, rfl, ?_⟩
      simp only [BigFloat.toRat]
      rw [zpow_add₀ (by norm_num), zpow_natCast]
  obtain ⟨hfin, hprec, hrat⟩ := hval
  refine ⟨hfin, hprec, ?_⟩
  rw [hrat]
  set m1 : ℚ := ((BigFloat.roundMant q t sbit : Nat) : ℚ) with hm1
  set E : ℚ := (2 : ℚ) ^ e with hEd
  set T : ℚ := (2 : ℚ) ^ t with hTd
  set P : ℚ := (2 : ℚ) ^ p1 with hPd
  have hP : (0 : ℚ) < P := by positivity
  have hd : m1 * (E * T) - ((q : ℚ) + s) * E = (m1 - ((q : ℚ) + s) / T) * (E * T) := by
    field_simp
    ring
  rw [hd, abs_mul, abs_of_pos (mul_pos hE hT), pow_succ]
  have hET : (0 : ℚ) < E * T := mul_pos hE hT
  calc |m1 - ((q : ℚ) + s) / T| * (E * T) * (P * 2)
      ≤ 1 / 2 * (E * T) * (P * 2) := by
        apply mul_le_mul_of_nonneg_right _ (by positivity)
        exact mul_le_mul_of_nonneg_right hclose (le_of_lt hET)
    _ = (P * T) * E := by ring
    _ ≤ ((q : ℚ) + s) * E := mul_le_mul_of_nonneg_right hmu (le_of_lt hE)

/-- When `roundMant` lands exactly one half from the exact quotient, the rounded
mantissa is even. -/
theorem roundMant_tie (q t : Nat) (sbit : Bool) (s : ℚ) (ht : 0 < t) (hs0 : 0 ≤ s)
    (hs1 : s < 1) (hsb : s = 0 → sbit = false)
    (htie : |((BigFloat.roundMant q t sbit : Nat) : ℚ) - ((q : ℚ) + s) / (2 : ℚ) ^ t| = 1 / 2) :
    BigFloat.roundMant q t sbit % 2 = 0 := by
  obtain ⟨u, rfl⟩ : ∃ u, t = u + 1 := ⟨t - 1, by omega⟩
  set h : Nat := 2 ^ u with hh
  have hpos : 0 < h := by positivity
  have hT : (2 : ℚ) ^ (u + 1) = 2 * (h : ℚ) := by
    rw [hh]; push_cast; ring
  have hdiv : q / 2 ^ (u + 1) = q / h / 2 := by
    rw [pow_succ, Nat.div_div_eq_div_mul]
  have hq1 : h * (q / h) + q % h = q := Nat.div_add_mod q h
  have hq2 : 2 * (q / h / 2) + (q / h) % 2 = q / h := Nat.div_add_mod (q / h) 2
  have hl : q % h < h := Nat.mod_lt _ hpos
  have hr : (q / h) % 2 < 2 := Nat.mod_lt _ (by norm_num)
  set m : Nat := q / h / 2 with hm
  set r : Nat := (q / h) % 2 with hr'
  set l : Nat := q % h with hl'
  have hqQ : (q : ℚ) = (h : ℚ) * (2 * (m : ℚ) + (r : ℚ)) + (l : ℚ) := by
    have : q = h * (2 * m + r) + l := by rw [hq2]; exact hq1.symm
    exact_mod_cast this
  have hlQ : (l : ℚ) + 1 ≤ (h : ℚ) := by exact_mod_cast hl
  have hl0 : (0 : ℚ) ≤ (l : ℚ) := Nat.cast_nonneg _
  have hhQ : (0 : ℚ) < (h : ℚ) := by exact_mod_cast hpos
  have h2h : (0 : ℚ) < 2 * h := by linarith
  rw [hT] at htie
  have key : ∀ m1 : ℚ, |m1 - ((q : ℚ) + s) / (2 * (h : ℚ))| = 1 / 2 →
      (2 * h * m1 - (q + s) = h ∨ 2 * h * m1 - (q + s) = -h) := by
    intro m1 hm1
    have e : m1 - ((q : ℚ) + s) / (2 * (h : ℚ)) = (2 * h * m1 - (q + s)) / (2 * (h : ℚ)) := by
      field_simp
      ring
    rw [e] at hm1
    rcases (abs_eq (by norm_num : (0 : ℚ) ≤ 1 / 2)).1 hm1 with h1 | h1
    · left
      rw [div_eq_iff (ne_of_gt h2h)] at h1
      linarith
    · right
      rw [div_eq_iff (ne_of_gt h2h)] at h1
      linarith
  unfold BigFloat.roundMant at htie ⊢
  simp only [Nat.add_sub_cancel, hdiv] at htie ⊢
  rw [← hr', ← hl'] at htie ⊢
  have hr01 : r = 0 ∨ r = 1 := by omega
  rcases hr01 with h0 | h1
  · have hrQ : (r : ℚ) = 0 := by exact_mod_cast h0
    simp only [h0, zero_ne_one, decide_False, Bool.false_and, Bool.false_eq_true,
      if_false] at htie ⊢
    exfalso
    rcases key _ htie with h3 | h3
    · rw [hqQ, hrQ] at h3; linarith
    · rw [hqQ, hrQ] at h3; linarith
  · have hrQ : (r : ℚ) = 1 := by exact_mod_cast h1
    simp only [h1, decide_True, Bool.true_and] at htie ⊢
    by_cases hinc : (sbit || decide (l ≠ 0) || decide (m % 2 = 1)) = true
    · rw [if_pos hinc] at htie ⊢
      have hls : (l : ℚ) = 0 ∧ s = 0 := by
        rcases key _ htie with h3 | h3
        · rw [hqQ, hrQ] at h3
          push_cast at h3
          constructor <;> linarith
        · rw [hqQ, hrQ] at h3
          push_cast at h3
          exfalso
          linarith
      have hlz : l = 0 := by exact_mod_cast hls.1
      have hsf : sbit = false := hsb hls.2
      simp only [hsf, hlz, ne_eq, not_true_eq_false, decide_False, Bool.or_self,
        Bool.false_or, decide_eq_true_eq] at hinc
      omega
    · rw [if_neg hinc]
      simp only [Bool.or_eq_true, decide_eq_true_eq, not_or, Bool.not_eq_true] at hinc
      omega

/-- A value `m' * 2 ^ d` with `m' < 2 ^ p` other than the natural number `M` lies
at least one half from any `μ ≥ 2 ^ p / 2` that is within one half of `M`. -/
theorem half_le_of_ne (p M m' : Nat) (μ : ℚ) (d : Int) (hμ : (2 : ℚ) ^ p ≤ 2 * μ)
    (hclose : |(M : ℚ) - μ| ≤ 1 / 2) (hm' : m' < 2 ^ p)
    (hne : (m' : ℚ) * (2 : ℚ) ^ d ≠ (M : ℚ)) :
    1 / 2 ≤ |(m' : ℚ) * (2 : ℚ) ^ d - μ| := by
  obtain ⟨hc1, hc2⟩ := abs_le.1 hclose
  cases d with
  | ofNat j =>
    have hk : (m' : ℚ) * (2 : ℚ) ^ (Int.ofNat j) = ((m' * 2 ^ j : Nat) : ℚ) := by
      rw [Int.ofNat_eq_coe, zpow_natCast]; push_cast; ring
    rw [hk] at hne ⊢
    generalize m' * 2 ^ j = k at hne ⊢
    have hkM : k ≠ M := fun h => hne (by rw [h])
    rcases Nat.lt_or_gt_of_ne hkM with hlt | hgt
    · have h1 : (k : ℚ) + 1 ≤ (M : ℚ) := by exact_mod_cast hlt
      rw [abs_sub_comm]
      exact le_trans (by linarith) (le_abs_self _)
    · have h1 : (M : ℚ) + 1 ≤ (k : ℚ) := by exact_mod_cast hgt
      exact le_trans (by linarith) (le_abs_self _)
  | negSucc j =>
    have h2j : (2 : ℚ) ≤ (2 : ℚ) ^ (j + 1) := by
      have : (1 : ℚ) ≤ (2 : ℚ) ^ j := one_le_pow₀ (by norm_num)
      rw [pow_succ]; linarith
    have hm0 : (0 : ℚ) ≤ (m' : ℚ) := Nat.cast_nonneg _
    have hm1 : (m' : ℚ) + 1 ≤ (2 : ℚ) ^ p := by exact_mod_cast hm'
    have hg : (m' : ℚ) * (2 : ℚ) ^ (Int.negSucc j) ≤ (m' : ℚ) / 2 := by
      rw [zpow_negSucc, div_eq_mul_inv]
      apply mul_le_mul_of_nonneg_left _ hm0
      exact inv_anti₀ (by norm_num) h2j
    rw [abs_sub_comm]
    exact le_trans (by linarith) (le_abs_self _)

/-- The natural number within one half of `μ` is nearest to `μ` among all values
`m' * 2 ^ d` with `m' < 2 ^ p`, and a different such value at the same distance
places `μ` exactly one half from it. -/
theorem nearest_of_half (p M m' : Nat) (μ : ℚ) (d : Int) (hμ : (2 : ℚ) ^ p ≤ 2 * μ)
    (hclose : |(M : ℚ) - μ| ≤ 1 / 2) (hm' : m' < 2 ^ p) :
    |(M : ℚ) - μ| ≤ |(m' : ℚ) * (2 : ℚ) ^ d - μ| ∧
    ((m' : ℚ) * (2 : ℚ) ^ d ≠ (M : ℚ) →
      |(m' : ℚ) * (2 : ℚ) ^ d - μ| = |(M : ℚ) - μ| → |(M : ℚ) - μ| = 1 / 2) := by
  constructor
  · by_cases hne : (m' : ℚ) * (2 : ℚ) ^ d = (M : ℚ)
    · rw [hne]
    · exact le_trans hclose (half_le_of_ne p M m' μ d hμ hclose hm' hne)
  · intro hne heq
    have := half_le_of_ne p M m' μ d hμ hclose hm' hne
    rw [heq] at this
    exact le_antisymm hclose this

/-- The result of `round` on a mantissa of more than `p` bits: a normalised
mantissa and exponent whose value is the rounded mantissa times `2 ^ (e + t)`,
`t` the number of bits cut. -/
theorem round_eq (p q : Nat) (e : Int) (sbit : Bool) (t : Nat) (hp : 0 < p)
    (hbt : bitLen q = p + t) (ht : 0 < t) :
    ∃ (m : Nat) (E : Int), BigFloat.round p q e sbit = BigFloat.finite p m E ∧
      (m : ℚ) * (2 : ℚ) ^ E =
        ((BigFloat.roundMant q t sbit : Nat) : ℚ) * (2 : ℚ) ^ (e + (t : Int)) ∧
      ((BigFloat.roundMant q t sbit = 2 ^ p ∧ m = 2 ^ (p - 1)) ∨
        (BigFloat.roundMant q t sbit ≠ 2 ^ p ∧ m = BigFloat.roundMant q t sbit)) := by
  have hq : q ≠ 0 := by
    intro h0
    rw [h0, bitLen_zero] at hbt
    omega
  have htt : bitLen q - p = t := by omega
  unfold BigFloat.round
  rw [if_neg hq]
  simp only []
  rw [if_neg (by omega), htt]
  by_cases hov : BigFloat.roundMant q t sbit = 2 ^ p
  · rw [if_pos hov]
    refine ⟨_, _, rfl, ?_, Or.inl ⟨hov, rfl⟩⟩
    obtain ⟨p1, rfl⟩ : ∃ p1, p = p1 + 1 := ⟨p - 1, by omega⟩
    rw [hov, zpow_add₀ (by norm_num : (2 : ℚ) ≠ 0), zpow_one, Nat.add_sub_cancel]
    push_cast
    ring
  · rw [if_neg hov]
    exact ⟨_, _, rfl, rfl, Or.inr ⟨hov, rfl⟩⟩

/-- Rounding a mantissa of more than `p` bits gives the value of precision `p`
nearest to the exact value `(q + s) * 2 ^ e`, with an even mantissa when two such
values are equally near. -/
theorem round_nearest (p q : Nat) (e : Int) (sbit : Bool) (s : ℚ) (hp : 2 ≤ p)
    (hb : p < bitLen q) (hs0 : 0 ≤ s) (hs1 : s < 1) (hsb1 : sbit = false → s = 0)
    (hsb2 : s = 0 → sbit = false) :
    ∃ (m : Nat) (E : Int), BigFloat.round p q e sbit = BigFloat.finite p m E ∧
      2 ^ (p - 1) ≤ m ∧ m < 2 ^ p ∧
      (∀ (m' : Nat) (e' : Int), m' < 2 ^ p →
        |(m : ℚ) * (2 : ℚ) ^ E - ((q : ℚ) + s) * (2 : ℚ) ^ e| ≤
          |(m' : ℚ) * (2 : ℚ) ^ e' - ((q : ℚ) + s) * (2 : ℚ) ^ e|) ∧
      (∀ (m' : Nat) (e' : Int), m' < 2 ^ p →
        (m' : ℚ) * (2 : ℚ) ^ e' ≠ (m : ℚ) * (2 : ℚ) ^ E →
        |(m' : ℚ) * (2 : ℚ) ^ e' - ((q : ℚ) + s) * (2 : ℚ) ^ e| =
          |(m : ℚ) * (2 : ℚ) ^ E - ((q : ℚ) + s) * (2 : ℚ) ^ e| →
        m % 2 = 0) := by
  have hq : 0 < q := by
    rcases Nat.eq_zero_or_pos q with h0 | h0
    · rw [h0, bitLen_zero] at hb; omega
    · exact h0
  obtain ⟨_, hlo, hhi⟩ := bitLen_spec q hq
  obtain ⟨t, hbt⟩ : ∃ t, bitLen q = p + t := ⟨bitLen q - p, by omega⟩
  have ht0 : 0 < t := by omega
  have hclose := roundMant_close q t sbit s ht0 hs0 hs1 hsb1
  have htie := roundMant_tie q t sbit s ht0 hs0 hs1 hsb2
  obtain ⟨m, E, hround, hval, hcase⟩ := round_eq p q e sbit t (by omega) hbt ht0
  generalize BigFloat.roundMant q t sbit = m1 at hclose htie hval hcase
  obtain ⟨p1, rfl⟩ : ∃ p1, p = p1 + 1 := ⟨p - 1, by omega⟩
  have hT : (0 : ℚ) < (2 : ℚ) ^ t := by positivity
  have hE0 : (0 : ℚ) < (2 : ℚ) ^ (e + (t : Int)) := zpow_pos (by norm_num) _
  -- bounds on the exact mantissa
  have hqlo : (2 : ℚ) ^ p1 * (2 : ℚ) ^ t ≤ (q : ℚ) := by
    have h1 : 2 ^ p1 * 2 ^ t ≤ q := by
      rw [← pow_add]
      have : bitLen q - 1 = p1 + t := by omega
      rw [← this]; exact hlo
    exact_mod_cast h1
  have hqhi : (q : ℚ) + 1 ≤ (2 : ℚ) ^ (p1 + 1) * (2 : ℚ) ^ t := by
    have h1 : q + 1 ≤ 2 ^ (p1 + 1) * 2 ^ t := by
      rw [← pow_add, ← hbt]; exact hhi
    exact_mod_cast h1
  set μ : ℚ := ((q : ℚ) + s) / (2 : ℚ) ^ t with hμdef
  have hμlo : (2 : ℚ) ^ p1 ≤ μ := by
    rw [hμdef, le_div_iff₀ hT]; linarith
  have hμhi : μ < (2 : ℚ) ^ (p1 + 1) := by
    rw [hμdef, div_lt_iff₀ hT]; linarith
  have hμ2 : (2 : ℚ) ^ (p1 + 1) ≤ 2 * μ := by
    rw [pow_succ]; linarith
  have hx : ((q : ℚ) + s) * (2 : ℚ) ^ e = μ * (2 : ℚ) ^ (e + (t : Int)) := by
    rw [hμdef, zpow_add₀ (by norm_num : (2 : ℚ) ≠ 0), zpow_natCast]
    field_simp
    ring
  obtain ⟨hc1, hc2⟩ := abs_le.1 hclose
  -- bounds on the rounded mantissa
  have hm1lo : 2 ^ p1 ≤ m1 := by
    by_contra hlt
    have h1 : (m1 : ℚ) + 1 ≤ (2 : ℚ) ^ p1 := by
      have : m1 + 1 ≤ 2 ^ p1 := by omega
      exact_mod_cast this
    linarith
  have hm1hi : m1 ≤ 2 ^ (p1 + 1) := by
    by_contra hgt
    have h1 : (2 : ℚ) ^ (p1 + 1) + 1 ≤ (m1 : ℚ) := by
      have : 2 ^ (p1 + 1) + 1 ≤ m1 := by omega
      exact_mod_cast this
    linarith
  -- distances in units of the last place
  have hscale : ∀ (m' : Nat) (e' : Int),
      |(m' : ℚ) * (2 : ℚ) ^ e' - μ * (2 : ℚ) ^ (e + (t : Int))| =
        |(m' : ℚ) * (2 : ℚ) ^ (e' - (e + (t : Int))) - μ| * (2 : ℚ) ^ (e + (t : Int)) := by
    intro m' e'
    rw [← abs_of_pos hE0, ← abs_mul, abs_of_pos hE0, sub_mul, mul_assoc,
      ← zpow_add₀ (by norm_num : (2 : ℚ) ≠ 0), sub_add_cancel]
  have hself : |(m : ℚ) * (2 : ℚ) ^ E - μ * (2 : ℚ) ^ (e + (t : Int))| =
      |(m1 : ℚ) - μ| * (2 : ℚ) ^ (e + (t : Int)) := by
    rw [hval, ← sub_mul, abs_mul, abs_of_pos hE0]
  have hm_lo : 2 ^ (p1 + 1 - 1) ≤ m ∧ m < 2 ^ (p1 + 1) := by
    rw [Nat.add_sub_cancel]
    rcases hcase with ⟨hov, hm⟩ | ⟨hov, hm⟩
    · rw [hm, Nat.add_sub_cancel]
      have h2p : 0 < 2 ^ p1 := by positivity
      exact ⟨le_rfl, by rw [pow_succ]; omega⟩
    · rw [hm]
      exact ⟨hm1lo, lt_of_le_of_ne hm1hi hov⟩
  refine ⟨m, E, hround, hm_lo.1, hm_lo.2, ?_, ?_⟩
  · intro m' e' hm'
    rw [hx, hscale m' e', hself]
    exact mul_le_mul_of_nonneg_right
      (nearest_of_half (p1 + 1) m1 m' μ _ hμ2 hclose hm').1 (le_of_lt hE0)
  · intro m' e' hm' hne heq
    rw [hx, hscale m' e', hself] at heq
    have heq2 := mul_right_cancel₀ (ne_of_gt hE0) heq
    have hne2 : (m' : ℚ) * (2 : ℚ) ^ (e' - (e + (t : Int))) ≠ (m1 : ℚ) := by
      intro h
      apply hne
      rw [hval, ← h, mul_assoc, ← zpow_add₀ (by norm_num : (2 : ℚ) ≠ 0), sub_add_cancel]
    have hhalf := (nearest_of_half (p1 + 1) m1 m' μ _ hμ2 hclose hm').2 hne2 heq2
    rcases hcase with ⟨hov, hm⟩ | ⟨hov, hm⟩
    · rw [hm, Nat.add_sub_cancel]
      obtain ⟨p2, rfl⟩ : ∃ p2, p1 = p2 + 1 := ⟨p1 - 1, by omega⟩
      rw [pow_succ]; omega
    · rw [hm]
      exact htie hhalf

theorem SetInt_pos (w : Nat) (hw : 0 < w) :
    BigFloat.SetInt w =
      BigFloat.finite (max (bitLen w) 64) (w * 2 ^ (max (bitLen w) 64 - bitLen w))
        (0 - ((max (bitLen w) 64 - bitLen w : Nat) : Int)) := by
  unfold BigFloat.SetInt BigFloat.round
  rw [if_neg (by omega)]
  simp only []
  rw [if_pos (le_max_left _ _)]

theorem bitLen_mant_1e18 : bitLen 7812500000000000 = 53 := by decide

/-- The quotient step of `Quo` for a dividend `w * 2 ^ d * 2 ^ (-d)` and a divisor
`ym * 2 ^ 7` with `ym` of at most 53 bits: the rounded result is within relative
error `2 ^ (-p)` of `w / (ym * 2 ^ 7)`. -/
theorem uquo_close (p d w ym : Nat) (hw : 0 < w) (hp : 0 < p) (hym0 : 0 < ym)
    (hym : ym ≤ 2 ^ 53) :
    (BigFloat.round p (w * 2 ^ d * 2 ^ (p + 1 + 53) / ym)
      (0 - (d : Int) - 7 - ((p + 1 + 53 : Nat) : Int))
      (decide (w * 2 ^ d * 2 ^ (p + 1 + 53) % ym ≠ 0))).isFinite = true ∧
    (BigFloat.round p (w * 2 ^ d * 2 ^ (p + 1 + 53) / ym)
      (0 - (d : Int) - 7 - ((p + 1 + 53 : Nat) : Int))
      (decide (w * 2 ^ d * 2 ^ (p + 1 + 53) % ym ≠ 0))).prec = p ∧
    |(BigFloat.round p (w * 2 ^ d * 2 ^ (p + 1 + 53) / ym)
      (0 - (d : Int) - 7 - ((p + 1 + 53 : Nat) : Int))
      (decide (w * 2 ^ d * 2 ^ (p + 1 + 53) % ym ≠ 0))).toRat -
        (w : ℚ) / ((ym : ℚ) * 2 ^ 7)| * (2 : ℚ) ^ p ≤ (w : ℚ) / ((ym : ℚ) * 2 ^ 7) := by
  set N : Nat := w * 2 ^ d * 2 ^ (p + 1 + 53) with hN
  set Q : Nat := N / ym with hQ
  set R : Nat := N % ym with hR
  have hdm : ym * Q + R = N := Nat.div_add_mod N ym
  clear_value R Q N
  have hRlt : R < ym := by rw [hR]; exact Nat.mod_lt _ hym0
  have hymQ : (0 : ℚ) < (ym : ℚ) := by exact_mod_cast hym0
  have hQbig : 2 ^ (p + 1) ≤ Q := by
    rw [hQ, Nat.le_div_iff_mul_le hym0]
    have h1 : 1 ≤ w * 2 ^ d := Nat.mul_pos hw (by positivity)
    calc 2 ^ (p + 1) * ym ≤ 2 ^ (p + 1) * 2 ^ 53 := Nat.mul_le_mul_left _ hym
      _ = 1 * 2 ^ (p + 1 + 53) := by ring
      _ ≤ w * 2 ^ d * 2 ^ (p + 1 + 53) := Nat.mul_le_mul_right _ h1
      _ = N := hN.symm
  have hQpos : 0 < Q := lt_of_lt_of_le (by positivity) hQbig
  have hbQ : p < bitLen Q := by
    obtain ⟨_, _, hhi⟩ := bitLen_spec Q hQpos
    have h3 : 2 ^ (p + 1) < 2 ^ bitLen Q := lt_of_le_of_lt hQbig hhi
    have h4 := (Nat.pow_lt_pow_iff_right (by norm_num : 1 < 2)).1 h3
    omega
  have hs0 : (0 : ℚ) ≤ (R : ℚ) / (ym : ℚ) := div_nonneg (Nat.cast_nonneg _) (Nat.cast_nonneg _)
  have hs1 : (R : ℚ) / (ym : ℚ) < 1 := by
    rw [div_lt_one hymQ]
    exact_mod_cast hRlt
  have hsb : decide (R ≠ 0) = false → (R : ℚ) / (ym : ℚ) = 0 := by
    intro h
    have : R = 0 := by simpa using h
    rw [this]; simp
  obtain ⟨hfin, hprec, hcl⟩ := round_close p Q
    (0 - (d : Int) - 7 - ((p + 1 + 53 : Nat) : Int)) (decide (R ≠ 0))
    ((R : ℚ) / (ym : ℚ)) hp hbQ hs0 hs1 hsb
  have hexact : ((Q : ℚ) + (R : ℚ) / (ym : ℚ)) *
      (2 : ℚ) ^ (0 - (d : Int) - 7 - ((p + 1 + 53 : Nat) : Int)) =
        (w : ℚ) / ((ym : ℚ) * 2 ^ 7) := by
    have hNQ : (ym : ℚ) * (Q : ℚ) + (R : ℚ) = (w : ℚ) * 2 ^ d * 2 ^ (p + 1 + 53) := by
      have := hdm
      rw [hN] at this
      exact_mod_cast this
    have hQR : (Q : ℚ) + (R : ℚ) / (ym : ℚ) =
        (w : ℚ) * 2 ^ d * 2 ^ (p + 1 + 53) / (ym : ℚ) := by
      rw [← hNQ]; field_simp; ring
    have hexp : (0 - (d : Int) - 7 - ((p + 1 + 53 : Nat) : Int)) =
        -(((d + 7 + (p + 1 + 53) : Nat)) : Int) := by push_cast; ring
    rw [hQR, hexp, zpow_neg, zpow_natCast, pow_add, pow_add]
    have h2d : (2 : ℚ) ^ d ≠ 0 := by positivity
    have h2k : (2 : ℚ) ^ (p + 1 + 53) ≠ 0 := by positivity
    field_simp
    ring
  rw [hexact] at hcl
  exact ⟨hfin, hprec, hcl⟩

/-- The integer division inside `Quo` for a dividend `w * 2 ^ d * 2 ^ (-d)` and a
divisor `ym * 2 ^ 7` with `ym` of at most 53 bits: the quotient has more than `p`
bits, the sticky bit tells whether the remainder is non-zero, and quotient and
remainder together denote `w / (ym * 2 ^ 7)` exactly. -/
theorem uquo_exact (p d w ym : Nat) (hw : 0 < w) (hym0 : 0 < ym) (hym : ym ≤ 2 ^ 53) :
    p < bitLen (w * 2 ^ d * 2 ^ (p + 1 + 53) / ym) ∧
    (0 : ℚ) ≤ ((w * 2 ^ d * 2 ^ (p + 1 + 53) % ym : Nat) : ℚ) / (ym : ℚ) ∧
    ((w * 2 ^ d * 2 ^ (p + 1 + 53) % ym : Nat) : ℚ) / (ym : ℚ) < 1 ∧
    (decide (w * 2 ^ d * 2 ^ (p + 1 + 53) % ym ≠ 0) = false ↔
      ((w * 2 ^ d * 2 ^ (p + 1 + 53) % ym : Nat) : ℚ) / (ym : ℚ) = 0) ∧
    (((w * 2 ^ d * 2 ^ (p + 1 + 53) / ym : Nat) : ℚ) +
        ((w * 2 ^ d * 2 ^ (p + 1 + 53) % ym : Nat) : ℚ) / (ym : ℚ)) *
      (2 : ℚ) ^ (0 - (d : Int) - 7 - ((p + 1 + 53 : Nat) : Int)) =
        (w : ℚ) / ((ym : ℚ) * 2 ^ 7) := by
  set N : Nat := w * 2 ^ d * 2 ^ (p + 1 + 53) with hN
  set Q : Nat := N / ym with hQ
  set R : Nat := N % ym with hR
  have hdm : ym * Q + R = N := Nat.div_add_mod N ym
  clear_value R Q N
  have hRlt : R < ym := by rw [hR]; exact Nat.mod_lt _ hym0
  have hymQ : (0 : ℚ) < (ym : ℚ) := by exact_mod_cast hym0
  have hQbig : 2 ^ (p + 1) ≤ Q := by
    rw [hQ, Nat.le_div_iff_mul_le hym0]
    have h1 : 1 ≤ w * 2 ^ d := Nat.mul_pos hw (by positivity)
    calc 2 ^ (p + 1) * ym ≤ 2 ^ (p + 1) * 2 ^ 53 := Nat.mul_le_mul_left _ hym
      _ = 1 * 2 ^ (p + 1 + 53) := by ring
      _ ≤ w * 2 ^ d * 2 ^ (p + 1 + 53) := Nat.mul_le_mul_right _ h1
      _ = N := hN.symm
  have hQpos : 0 < Q := lt_of_lt_of_le (by positivity) hQbig
  have hbQ : p < bitLen Q := by
    obtain ⟨_, _, hhi⟩ := bitLen_spec Q hQpos
    have h3 : 2 ^ (p + 1) < 2 ^ bitLen Q := lt_of_le_of_lt hQbig hhi
    have h4 := (Nat.pow_lt_pow_iff_right (by norm_num : 1 < 2)).1 h3
    omega
  have hs0 : (0 : ℚ) ≤ (R : ℚ) / (ym : ℚ) := div_nonneg (Nat.cast_nonneg _) (Nat.cast_nonneg _)
  have hs1 : (R : ℚ) / (ym : ℚ) < 1 := by
    rw [div_lt_one hymQ]
    exact_mod_cast hRlt
  have hsb : decide (R ≠ 0) = false ↔ (R : ℚ) / (ym : ℚ) = 0 := by
    constructor
    · intro h
      have : R = 0 := by simpa using h
      rw [this]; simp
    · intro h
      rcases div_eq_zero_iff.1 h with h0 | h0
      · have : R = 0 := by exact_mod_cast h0
        simp [this]
      · exact absurd h0 (ne_of_gt hymQ)
  refine ⟨hbQ, hs0, hs1, hsb, ?_⟩
  have hNQ : (ym : ℚ) * (Q : ℚ) + (R : ℚ) = (w : ℚ) * 2 ^ d * 2 ^ (p + 1 + 53) := by
    have := hdm
    rw [hN] at this
    exact_mod_cast this
  have hQR : (Q : ℚ) + (R : ℚ) / (ym : ℚ) =
      (w : ℚ) * 2 ^ d * 2 ^ (p + 1 + 53) / (ym : ℚ) := by
    rw [← hNQ]; field_simp; ring
  have hexp : (0 - (d : Int) - 7 - ((p + 1 + 53 : Nat) : Int)) =
      -(((d + 7 + (p + 1 + 53) : Nat)) : Int) := by push_cast; ring
  rw [hQR, hexp, zpow_neg, zpow_natCast, pow_add, pow_add]
  have h2d : (2 : ℚ) ^ d ≠ 0 := by positivity
  have h2k : (2 : ℚ) ^ (p + 1 + 53) ≠ 0 := by positivity
  field_simp
  ring

/-- The quotient step of `Quo` for a dividend `w * 2 ^ d * 2 ^ (-d)` and a divisor
`ym * 2 ^ 7` with `ym` of at most 53 bits: the result is the value of precision
`p` nearest to `w / (ym * 2 ^ 7)`, with an even mantissa on a tie. -/
theorem uquo_nearest (p d w ym : Nat) (hw : 0 < w) (hp : 2 ≤ p) (hym0 : 0 < ym)
    (hym : ym ≤ 2 ^ 53) :
    ∃ (m : Nat) (E : Int),
      BigFloat.round p (w * 2 ^ d * 2 ^ (p + 1 + 53) / ym)
        (0 - (d : Int) - 7 - ((p + 1 + 53 : Nat) : Int))
        (decide (w * 2 ^ d * 2 ^ (p + 1 + 53) % ym ≠ 0)) = BigFloat.finite p m E ∧
      2 ^ (p - 1) ≤ m ∧ m < 2 ^ p ∧
      (∀ (m' : Nat) (e' : Int), m' < 2 ^ p →
        |(m : ℚ) * (2 : ℚ) ^ E - (w : ℚ) / ((ym : ℚ) * 2 ^ 7)| ≤
          |(m' : ℚ) * (2 : ℚ) ^ e' - (w : ℚ) / ((ym : ℚ) * 2 ^ 7)|) ∧
      (∀ (m' : Nat) (e' : Int), m' < 2 ^ p →
        (m' : ℚ) * (2 : ℚ) ^ e' ≠ (m : ℚ) * (2 : ℚ) ^ E →
        |(m' : ℚ) * (2 : ℚ) ^ e' - (w : ℚ) / ((ym : ℚ) * 2 ^ 7)| =
          |(m : ℚ) * (2 : ℚ) ^ E - (w : ℚ) / ((ym : ℚ) * 2 ^ 7)| →
        m % 2 = 0) := by
  obtain ⟨hbQ, hs0, hs1, hsb, hexact⟩ := uquo_exact p d w ym hw hym0 hym
  have h := round_nearest p (w * 2 ^ d * 2 ^ (p + 1 + 53) / ym)
    (0 - (d : Int) - 7 - ((p + 1 + 53 : Nat) : Int))
    (decide (w * 2 ^ d * 2 ^ (p + 1 + 53) % ym ≠ 0))
    (((w * 2 ^ d * 2 ^ (p + 1 + 53) % ym : Nat) : ℚ) / (ym : ℚ)) hp hbQ hs0 hs1 hsb.1 hsb.2
  rw [hexact] at h
  exact h

theorem weiToEth_eq_round (w : Nat) (hw : 0 < w) :
    weiToEth w = some (BigFloat.round (max (bitLen w) 64)
      (w * 2 ^ (max (bitLen w) 64 - bitLen w) * 2 ^ (max (bitLen w) 64 + 1 + 53) /
        7812500000000000)
      (0 - ((max (bitLen w) 64 - bitLen w : Nat) : Int) - 7 -
        ((max (bitLen w) 64 + 1 + 53 : Nat) : Int))
      (decide (w * 2 ^ (max (bitLen w) 64 - bitLen w) * 2 ^ (max (bitLen w) 64 + 1 + 53) %
        7812500000000000 ≠ 0))) := by
  have hp64 : 64 ≤ max (bitLen w) 64 := le_max_right _ _
  have hmax : max (max (bitLen w) 64) 53 = max (bitLen w) 64 := max_eq_left (by omega)
  unfold weiToEth
  rw [NewFloat_1e18, SetInt_pos w hw]
  simp only [BigFloat.Quo, BigFloat.prec, hmax, bitLen_mant_1e18]

theorem weiToEth_close (w : Nat) (hw : 0 < w) :
    ∃ f : BigFloat, weiToEth w = some f ∧ f.isFinite = true ∧ f.prec = max (bitLen w) 64 ∧
      |f.toRat - (w : ℚ) / 10 ^ 18| * (2 : ℚ) ^ 64 ≤ (w : ℚ) / 10 ^ 18 := by
  have hp64 : 64 ≤ max (bitLen w) 64 := le_max_right _ _
  obtain ⟨hfin, hprec, hcl⟩ := uquo_close (max (bitLen w) 64) (max (bitLen w) 64 - bitLen w) w
    7812500000000000 hw (by omega) (by norm_num) (by norm_num)
  have hden : ((7812500000000000 : Nat) : ℚ) * 2 ^ 7 = 10 ^ 18 := by norm_num
  rw [hden] at hcl
  refine ⟨_, weiToEth_eq_round w hw, hfin, hprec, ?_⟩
  have hpow : (2 : ℚ) ^ 64 ≤ (2 : ℚ) ^ max (bitLen w) 64 :=
    pow_le_pow_right₀ (by norm_num) hp64
  exact le_trans (mul_le_mul_of_nonneg_left hpow (abs_nonneg _)) hcl

/-- For a positive amount `weiToEth` returns the value of
`max (bitLen w) 64` mantissa bits nearest to `w / 10 ^ 18`, with an even mantissa
on a tie. -/
theorem weiToEth_nearest (w : Nat) (hw : 0 < w) :
    ∃ (m : Nat) (E : Int),
      weiToEth w = some (BigFloat.finite (max (bitLen w) 64) m E) ∧
      2 ^ (max (bitLen w) 64 - 1) ≤ m ∧ m < 2 ^ max (bitLen w) 64 ∧
      (∀ (m' : Nat) (e' : Int), m' < 2 ^ max (bitLen w) 64 →
        |(m : ℚ) * (2 : ℚ) ^ E - (w : ℚ) / 10 ^ 18| ≤
          |(m' : ℚ) * (2 : ℚ) ^ e' - (w : ℚ) / 10 ^ 18|) ∧
      (∀ (m' : Nat) (e' : Int), m' < 2 ^ max (bitLen w) 64 →
        (m' : ℚ) * (2 : ℚ) ^ e' ≠ (m : ℚ) * (2 : ℚ) ^ E →
        |(m' : ℚ) * (2 : ℚ) ^ e' - (w : ℚ) / 10 ^ 18| =
          |(m : ℚ) * (2 : ℚ) ^ E - (w : ℚ) / 10 ^ 18| →
        m % 2 = 0) := by
  have hp64 : 64 ≤ max (bitLen w) 64 := le_max_right _ _
  obtain ⟨m, E, hr, hlo, hhi, hnear, htie⟩ := uquo_nearest (max (bitLen w) 64)
    (max (bitLen w) 64 - bitLen w) w 7812500000000000 hw (by omega) (by norm_num) (by norm_num)
  have hden : ((7812500000000000 : Nat) : ℚ) * 2 ^ 7 = 10 ^ 18 := by norm_num
  rw [hden] at hnear htie
  refine ⟨m, E, ?_, hlo, hhi, hnear, htie⟩
  rw [weiToEth_eq_round w hw, hr]

theorem weiToEth_1e18_half :
    weiToEth 1500000000000000000 = some (BigFloat.finite 64 13835058055282163712 (-63)) := by
  set_option maxRecDepth 100000 in decide

theorem weiToEth_one :
    weiToEth 1 = some (BigFloat.finite 64 10633823966279326983 (-123)) := by
  set_option maxRecDepth 100000 in decide

theorem String_1e18_half :
    (BigFloat.finite 64 13835058055282163712 (-63)).String = "1.5" := by
  set_option maxRecDepth 1000000 in decide

/-- C10 fails as stated: `weiToEth 1` is the 64-bit float
`10633823966279326983 * 2 ^ (-123)`, which is not the number `1 / 10 ^ 18`. -/
theorem C10_counterexample :
    weiToEth 1 = some (BigFloat.finite 64 10633823966279326983 (-123)) ∧
    (weiToEth 1).map BigFloat.toRat ≠ some ((1 : ℚ) / 10 ^ 18) := by
  refine ⟨weiToEth_one, ?_⟩
  rw [weiToEth_one]
  simp only [Option.map_some', BigFloat.toRat, ne_eq, Option.some.injEq]
  norm_num

/-- C10 as amended: for every non-negative amount `w`, `weiToEth w` returns a
finite `big.Float` of `max(w.BitLen(), 64)` mantissa bits holding `w ÷ 10^18`
rounded to that precision.  It is zero for `w = 0`; for `w > 0` it is a
normalised mantissa `m` and exponent `e` such that `m * 2^e` is at least as near
to `w ÷ 10^18` as every value `m' * 2^e'` with a mantissa `m'` of that many
bits, and `m` is even when another such value is equally near.  It therefore
differs from `w ÷ 10^18` by at most `(w ÷ 10^18) / 2^64`.  And
`weiToEth 1500000000000000000` is exactly `3/2`, which `String` shows as
"1.5". -/
theorem C10_weiToEth_rounded (w : Nat) :
    (∃ f : BigFloat, weiToEth w = some f ∧ f.isFinite = true ∧
      f.prec = max (bitLen w) 64 ∧
      |f.toRat - (w : ℚ) / 10 ^ 18| ≤ (w : ℚ) / 10 ^ 18 / 2 ^ 64 ∧
      (w = 0 → f = BigFloat.zero 64) ∧
      (0 < w → ∃ (m : Nat) (e : Int),
        f = BigFloat.finite (max (bitLen w) 64) m e ∧
        2 ^ (max (bitLen w) 64 - 1) ≤ m ∧ m < 2 ^ max (bitLen w) 64 ∧
        (∀ (m' : Nat) (e' : Int), m' < 2 ^ max (bitLen w) 64 →
          |(m : ℚ) * (2 : ℚ) ^ e - (w : ℚ) / 10 ^ 18| ≤
            |(m' : ℚ) * (2 : ℚ) ^ e' - (w : ℚ) / 10 ^ 18|) ∧
        (∀ (m' : Nat) (e' : Int), m' < 2 ^ max (bitLen w) 64 →
          (m' : ℚ) * (2 : ℚ) ^ e' ≠ (m : ℚ) * (2 : ℚ) ^ e →
          |(m' : ℚ) * (2 : ℚ) ^ e' - (w : ℚ) / 10 ^ 18| =
            |(m : ℚ) * (2 : ℚ) ^ e - (w : ℚ) / 10 ^ 18| →
          m % 2 = 0))) ∧
    (weiToEth 1500000000000000000).map BigFloat.toRat = some ((3 : ℚ) / 2) ∧
    (weiToEth 1500000000000000000).map BigFloat.String = some "1.5" := by
  refine ⟨?_, ?_, ?_⟩
  · rcases Nat.eq_zero_or_pos w with h0 | hpos
    · subst h0
      refine ⟨BigFloat.zero 64, by decide, rfl, rfl, ?_, fun _ => rfl, fun h => absurd h (by decide)⟩
      simp [BigFloat.toRat]
    · obtain ⟨f, hf, hfin, hprec, hcl⟩ := weiToEth_close w hpos
      obtain ⟨m, E, hm, hlo, hhi, hnear, htie⟩ := weiToEth_nearest w hpos
      have hfm : f = BigFloat.finite (max (bitLen w) 64) m E := by
        rw [hf] at hm
        exact Option.some.inj hm
      refine ⟨f, hf, hfin, hprec, ?_, fun h0 => absurd h0 (by omega), fun _ =>
        ⟨m, E, hfm, hlo, hhi, hnear, htie⟩⟩
      rw [le_div_iff₀ (by positivity)]
      exact hcl
  · rw [weiToEth_1e18_half]
    simp only [Option.map_some', BigFloat.toRat, Option.some.injEq]
    norm_num
  · rw [weiToEth_1e18_half, Option.map_some', String_1e18_half]

/-- C10 as amended, at `w = 10^20 + 1`: the result is the 67-bit mantissa
`115292150460684697601` with exponent `-60`, at least as near to `w ÷ 10^18` as
any other value of 67 mantissa bits; and at `w = 0` the result is zero. -/
theorem C10_weiToEth_rounded_witness :
    (0 < 100000000000000000001 ∧
      weiToEth 100000000000000000001 =
        some (BigFloat.finite 67 115292150460684697601 (-60)) ∧
      ∃ (m : Nat) (e : Int),
        weiToEth 100000000000000000001 =
          some (BigFloat.finite (max (bitLen 100000000000000000001) 64) m e) ∧
        ∀ (m' : Nat) (e' : Int), m' < 2 ^ max (bitLen 100000000000000000001) 64 →
          |(m : ℚ) * (2 : ℚ) ^ e - ((100000000000000000001 : Nat) : ℚ) / 10 ^ 18| ≤
            |(m' : ℚ) * (2 : ℚ) ^ e' - ((100000000000000000001 : Nat) : ℚ) / 10 ^ 18|) ∧
    weiToEth 0 = some (BigFloat.zero 64) := by
  constructor
  · refine ⟨by decide, by set_option maxRecDepth 100000 in decide, ?_⟩
    obtain ⟨⟨f, hf, _, _, _, _, hpos⟩, _⟩ := C10_weiToEth_rounded 100000000000000000001
    obtain ⟨m, e, hfm, _, _, hnear, _⟩ := hpos (by decide)
    exact ⟨m, e, by rw [hf, hfm], hnear⟩
  · obtain ⟨⟨f, hf, _, _, _, hzero, _⟩, _⟩ := C10_weiToEth_rounded 0
    rw [hf, hzero rfl]

end GoEtherStudy
